import Mathlib

/-!
Verification of the Hitori solver (HitoriSolver.cpp).

The C++ engine is shallowly embedded below.  Machine `unsigned` arithmetic is
modelled as `Nat` with explicit reduction modulo 2^32 exactly where the C++
performs unsigned subtraction (the count decrements and the candidate score);
exceptions are modelled by `Except Err`; the mutually recursive
`finalizeCell`/`deleteCell` cascade is defined structurally over an explicit
fuel argument (one unit of fuel per finalize/delete invocation), with the
public wrappers supplying `unknownCellCount + 1` units, which is shown
sufficient since every successful invocation strictly decreases
`unknownCellCount`.
-/

set_option maxRecDepth 4096

namespace Hitori

/-- Cell state, `Table::Cell::State` in the source. -/
inductive CState where
  | unknown
  | final
  | deleted
deriving DecidableEq, Repr

/-- A cell: immutable numeric value plus mutable state (`Table::Cell`). -/
structure Cell where
  value : Nat
  state : CState
deriving DecidableEq, Repr

/-- The exception classes thrown by the C++ code.  `fuelExhausted` is an
artifact of the fuel-based embedding of the recursion and corresponds to no
C++ exception; it is proved unreachable for the fuel supplied by the public
wrappers. -/
inductive Err where
  | invalidShape
  | invalidValue
  | multipleStateChange
  | noSolution (reason : String)
  | rangeError
  | notRoot
  | fuelExhausted
deriving DecidableEq, Repr

deriving instance DecidableEq for Except

/-- Reduction modulo 2^32, the behaviour of C++ `unsigned` arithmetic. -/
def u32 (x : Nat) : Nat := x % 4294967296

/-- The C++ `x--` on an `unsigned`: subtract one with wrap-around at zero. -/
def udec (x : Nat) : Nat := (x + 4294967295) % 4294967296

/-- `DisjointSets`: union-find over a fixed universe, parent links stored as
`int`s; a negative entry `-(rank+1)` marks a root of that rank. -/
structure DSU where
  parents : List Int
deriving DecidableEq, Repr

namespace DSU

/-- The root-finding loop of `DisjointSets::findSet` (`while parents[root] >= 0`),
with fuel; `parents.length` units suffice on every acyclic parent forest. -/
def findRootAux : Nat → List Int → Nat → Nat
  | 0, _, e => e
  | f + 1, ps, e =>
    let p := ps.getD e (-1)
    if 0 ≤ p then findRootAux f ps p.toNat else e

/-- The path-compression loop of `DisjointSets::findSet`: every node visited on
the way to the root is re-pointed directly at the root. -/
def compressAux : Nat → List Int → Nat → Nat → List Int
  | 0, ps, _, _ => ps
  | f + 1, ps, e, root =>
    let p := ps.getD e (-1)
    if 0 ≤ p then compressAux f (ps.set e (Int.ofNat root)) p.toNat root else ps

/-- `DisjointSets::findSet`: range check, locate the root, compress the path.
Returns the root together with the compressed structure. -/
def findSet (d : DSU) (e : Nat) : Except Err (Nat × DSU) :=
  if e < d.parents.length then
    let root := findRootAux d.parents.length d.parents e
    Except.ok (root, ⟨compressAux d.parents.length d.parents e root⟩)
  else Except.error Err.rangeError

/-- `DisjointSets::linkSets`: merge two known roots using union by rank
(rank stored as `-(rank+1)` on the root); a non-root argument is a logic
error. -/
def linkSets (d : DSU) (s1 s2 : Nat) : Except Err DSU :=
  if s1 < d.parents.length then
    if s2 < d.parents.length then
      if 0 ≤ d.parents.getD s1 (-1) ∨ 0 ≤ d.parents.getD s2 (-1) then
        Except.error Err.notRoot
      else if s1 = s2 then Except.ok d
      else
        let rank1 := -(d.parents.getD s1 (-1)) - 1
        let rank2 := -(d.parents.getD s2 (-1)) - 1
        if rank1 < rank2 then Except.ok ⟨d.parents.set s1 (Int.ofNat s2)⟩
        else if rank2 < rank1 then Except.ok ⟨d.parents.set s2 (Int.ofNat s1)⟩
        else Except.ok ⟨(d.parents.set s1 (Int.ofNat s2)).set s2 (d.parents.getD s2 (-1) - 1)⟩
    else Except.error Err.rangeError
  else Except.error Err.rangeError

/-- `DisjointSets::unionSets`: find both roots (with compression) and link. -/
def unionSets (d : DSU) (e1 e2 : Nat) : Except Err DSU := do
  let r1 ← d.findSet e1
  let r2 ← r1.2.findSet e2
  r2.2.linkSets r1.1 r2.1

end DSU

/-- The board (`Table` in the source): size, cell grid, per-row and per-column
occurrence counts of values among Unknown cells, number of Unknown cells,
and the union-find forest over deleted cells plus the virtual border
element 0. -/
structure Table where
  size : Nat
  cells : List (List Cell)
  rowCounts : List (List Nat)
  columnCounts : List (List Nat)
  unknownCellCount : Nat
  deletedTrees : DSU
deriving DecidableEq, Repr

namespace Table

/-- Cell access `cells[r][c]`.  Out-of-range access (which is undefined
behaviour in C++ and never exercised by the engine) yields a Deleted dummy
cell, so that no state-changing operation accepts an out-of-range target. -/
def cellAt (t : Table) (r c : Nat) : Cell :=
  (t.cells.getD r []).getD c ⟨0, CState.deleted⟩

/-- `rowCounts[r][v]`. -/
def rowCount (t : Table) (r v : Nat) : Nat := (t.rowCounts.getD r []).getD v 0

/-- `columnCounts[c][v]`. -/
def colCount (t : Table) (c v : Nat) : Nat := (t.columnCounts.getD c []).getD v 0

/-- `Table::isSolved`. -/
def isSolved (t : Table) : Bool := t.unknownCellCount == 0

/-- Overwrite the state of cell `(r, c)`, keeping its value. -/
def setCellState (t : Table) (r c : Nat) (s : CState) : Table :=
  { t with
    cells := t.cells.set r ((t.cells.getD r []).set c
      { (t.cells.getD r []).getD c ⟨0, CState.deleted⟩ with state := s }) }

/-- The common bookkeeping of `finalizeCell` and `deleteCell` after the state
change: `rowCounts[row][value]--; columnCounts[column][value]--;
unknownCellCount--` (unsigned decrements). -/
def decCounts (t : Table) (r c v : Nat) : Table :=
  { t with
    rowCounts := t.rowCounts.set r
      ((t.rowCounts.getD r []).set v (udec ((t.rowCounts.getD r []).getD v 0)))
    columnCounts := t.columnCounts.set c
      ((t.columnCounts.getD c []).set v (udec ((t.columnCounts.getD c []).getD v 0)))
    unknownCellCount := udec t.unknownCellCount }

/-- Set the state of `(r, c)` and perform the three count decrements, exactly
the mutation block shared by `finalizeCell` and `deleteCell`. -/
def markCell (t : Table) (r c : Nat) (s : CState) : Table :=
  decCounts (setCellState t r c s) r c (t.cellAt r c).value

end Table

/-- The `Table` constructor: validates that the row lengths all equal the
number of rows and that every value lies in `[1, size]`, builds the all-Unknown
cell grid, the occurrence counts, `unknownCellCount = size*size`, and a
singleton union-find forest of `size*size + 1` elements.  (The C++ builds the
counts by repeated `++`; for any grid small enough that the counts fit in an
`unsigned` this equals the occurrence count used here.) -/
def mkTable (initValues : List (List Nat)) : Except Err Table :=
  let n := initValues.length
  if initValues.all (fun row => row.length == n) then
    if initValues.all (fun row => row.all (fun v => 1 ≤ v && v ≤ n)) then
      Except.ok
        { size := n
          cells := initValues.map (fun row => row.map (fun v => ⟨v, CState.unknown⟩))
          rowCounts := initValues.map (fun row => (List.range (n + 1)).map (fun v => row.count v))
          columnCounts := (List.range n).map (fun c =>
            (List.range (n + 1)).map (fun v => (initValues.map (fun row => row.getD c 0)).count v))
          unknownCellCount := n * n
          deletedTrees := ⟨List.replicate (n * n + 1) (-1)⟩ }
    else Except.error Err.invalidValue
  else Except.error Err.invalidShape

/-- Row-major list of the board positions, the iteration order of the nested
loops in `finalizeUniqueCells`. -/
def posList (n : Nat) : List (Nat × Nat) :=
  (List.range n).flatMap (fun r => (List.range n).map (fun c => (r, c)))

/-- The guard of the `finalizeUniqueCells` step: an Unknown cell whose value
occurs exactly once among the Unknown cells of both its row and its column. -/
def uniqueCond (t : Table) (p : Nat × Nat) : Prop :=
  (t.cellAt p.1 p.2).state = CState.unknown
    ∧ t.rowCount p.1 (t.cellAt p.1 p.2).value = 1
    ∧ t.colCount p.2 (t.cellAt p.1 p.2).value = 1

instance (t : Table) (p : Nat × Nat) : Decidable (uniqueCond t p) := by
  unfold uniqueCond; infer_instance

/-- One iteration of the `finalizeUniqueCells` double loop: a cell satisfying
`uniqueCond` is made Final, the two counts are set to zero, and
`unknownCellCount` is decremented. -/
def uniqueStep (t : Table) (p : Nat × Nat) : Table :=
  if uniqueCond t p then
    { t.setCellState p.1 p.2 CState.final with
      rowCounts := (t.setCellState p.1 p.2 CState.final).rowCounts.set p.1
        (((t.setCellState p.1 p.2 CState.final).rowCounts.getD p.1 []).set
          (t.cellAt p.1 p.2).value 0)
      columnCounts := (t.setCellState p.1 p.2 CState.final).columnCounts.set p.2
        (((t.setCellState p.1 p.2 CState.final).columnCounts.getD p.2 []).set
          (t.cellAt p.1 p.2).value 0)
      unknownCellCount := udec (t.setCellState p.1 p.2 CState.final).unknownCellCount }
  else t

/-- `Table::finalizeUniqueCells`. -/
def Table.finalizeUniqueCells (t : Table) : Table :=
  (posList t.size).foldl uniqueStep t

/-- In-grid test for an `Int` coordinate pair; the C++ writes the same test as
`r >= 0 && r < size` on wrapped `unsigned` coordinates. -/
def inGridB (size : Nat) (r c : Int) : Bool :=
  0 ≤ r && r < (size : Int) && 0 ≤ c && c < (size : Int)

/-- The four orthogonal neighbour offsets, in the rotation order of the first
loop of `deleteCell` (starting from `(0, -1)`). -/
def orthoOffsets : List (Int × Int) := [(0, -1), (1, 0), (0, 1), (-1, 0)]

/-- The four diagonal neighbour offsets, in the rotation order of the second
loop of `deleteCell` (starting from `(-1, -1)`). -/
def diagOffsets : List (Int × Int) := [(-1, -1), (1, -1), (1, 1), (-1, 1)]

/-- The four orthogonal neighbour offsets, in the rotation order of the third
loop of `deleteCell` (starting from `(0, 1)`). -/
def orthoFinalizeOffsets : List (Int × Int) := [(0, 1), (-1, 0), (0, -1), (1, 0)]

/-- The first loop of `deleteCell`: is some in-grid orthogonal neighbour
already Deleted? -/
def hasDeletedOrtho (t : Table) (row column : Nat) : Bool :=
  orthoOffsets.any (fun off =>
    let r := (row : Int) + off.1
    let c := (column : Int) + off.2
    inGridB t.size r c && ((t.cellAt r.toNat c.toNat).state == CState.deleted))

/-- The second loop of `deleteCell`: for each in-grid Deleted diagonal
neighbour, in order, find its root and the cell's root; link them if they
differ, otherwise fail with the "circular neighbors found" contradiction. -/
def diagProcess : List (Int × Int) → Table → Nat → Nat → Nat → DSU → Except Err DSU
  | [], _, _, _, _, d => Except.ok d
  | off :: offs, t, row, column, cellSet, d =>
    let r := (row : Int) + off.1
    let c := (column : Int) + off.2
    if inGridB t.size r c && ((t.cellAt r.toNat c.toNat).state == CState.deleted) then do
      let p1 ← d.findSet (r.toNat * t.size + c.toNat + 1)
      let p2 ← p1.2.findSet cellSet
      if p1.1 ≠ p2.1 then do
        let d3 ← p2.2.linkSets p1.1 p2.1
        diagProcess offs t row column cellSet d3
      else Except.error (Err.noSolution "circular neighbors found")
    else diagProcess offs t row column cellSet d

/-- The union-find phase of `deleteCell`: a border cell is first unioned with
the virtual border element 0, then the Deleted diagonal neighbours are
processed in order. -/
def deleteChecks (t : Table) (row column : Nat) : Except Err DSU := do
  let cellSet := row * t.size + column + 1
  let d0 ←
    if row = 0 ∨ row = t.size - 1 ∨ column = 0 ∨ column = t.size - 1 then
      t.deletedTrees.unionSets 0 cellSet
    else Except.ok t.deletedTrees
  diagProcess diagOffsets t row column cellSet d0

/-- The column conflict loop of `finalizeCell`: scan the rows of `column`; a
Final cell with the finalized value is a contradiction, an Unknown one is
deleted via the supplied delete operation. -/
def colScanRun (deleteFn : Table → Nat → Nat → Except Err Table)
    (value row column : Nat) (t : Table) : Except Err Table :=
  (List.range t.size).foldlM (fun acc r =>
    let cell := acc.cellAt r column
    if r ≠ row ∧ cell.value = value then
      match cell.state with
      | CState.final => Except.error (Err.noSolution "multiple finalized values found in a column")
      | CState.unknown => deleteFn acc r column
      | CState.deleted => Except.ok acc
    else Except.ok acc) t

/-- The row conflict loop of `finalizeCell`, symmetric to `colScanRun`. -/
def rowScanRun (deleteFn : Table → Nat → Nat → Except Err Table)
    (value row column : Nat) (t : Table) : Except Err Table :=
  (List.range t.size).foldlM (fun acc c =>
    let cell := acc.cellAt row c
    if c ≠ column ∧ cell.value = value then
      match cell.state with
      | CState.final => Except.error (Err.noSolution "multiple finalized values found in a row")
      | CState.unknown => deleteFn acc row c
      | CState.deleted => Except.ok acc
    else Except.ok acc) t

/-- The third loop of `deleteCell`: every Unknown orthogonal neighbour of the
deleted cell is forced Final via the supplied finalize operation. -/
def orthoRun (finalizeFn : Table → Nat → Nat → Except Err Table)
    (t : Table) (row column : Nat) : Except Err Table :=
  orthoFinalizeOffsets.foldlM (fun acc off =>
    let r := (row : Int) + off.1
    let c := (column : Int) + off.2
    if inGridB acc.size r c && ((acc.cellAt r.toNat c.toNat).state == CState.unknown) then
      finalizeFn acc r.toNat c.toNat
    else Except.ok acc) t

/-- Tag selecting one of the two mutually recursive mutation operations. -/
inductive COp where
  | finalizeOp
  | deleteOp
deriving DecidableEq, Repr

/-- The mutually recursive pair `Table::finalizeCell` / `Table::deleteCell`,
fuel-indexed.  The `finalizeOp` branch is `finalizeCell`: reject a non-Unknown
target, make the cell Final, decrement the three counts, and, when the
decremented column (then row) count is still positive, run the corresponding
conflict scan.  The `deleteOp` branch is `deleteCell`: reject a non-Unknown
target, fail if an orthogonal neighbour is Deleted, run the union-find phase,
make the cell Deleted, decrement the three counts, and force-finalize the
Unknown orthogonal neighbours. -/
def cellOpF : Nat → COp → Table → Nat → Nat → Except Err Table
  | 0, _, _, _, _ => Except.error Err.fuelExhausted
  | f + 1, COp.finalizeOp, t, row, column =>
    if (t.cellAt row column).state = CState.unknown then
      let value := (t.cellAt row column).value
      let t1 := t.markCell row column CState.final
      (do
        let t2 ←
          if 0 < t1.colCount column value then
            colScanRun (cellOpF f COp.deleteOp) value row column t1
          else Except.ok t1
        if 0 < t2.rowCount row value then
          rowScanRun (cellOpF f COp.deleteOp) value row column t2
        else Except.ok t2 : Except Err Table)
    else Except.error Err.multipleStateChange
  | f + 1, COp.deleteOp, t, row, column =>
    if (t.cellAt row column).state = CState.unknown then
      if hasDeletedOrtho t row column then
        Except.error (Err.noSolution "deleted neighbor found")
      else
        (do
          let d ← deleteChecks t row column
          let t1 := { t.markCell row column CState.deleted with deletedTrees := d }
          orthoRun (cellOpF f COp.finalizeOp) t1 row column : Except Err Table)
    else Except.error Err.multipleStateChange

/-- `Table::finalizeCell`.  `unknownCellCount + 1` units of fuel are supplied;
each recursive invocation strictly decreases `unknownCellCount`, so on any
consistent board the fuel is never exhausted. -/
def Table.finalizeCell (t : Table) (row column : Nat) : Except Err Table :=
  cellOpF (t.unknownCellCount + 1) COp.finalizeOp t row column

/-- `Table::deleteCell`, with fuel as in `Table.finalizeCell`. -/
def Table.deleteCell (t : Table) (row column : Nat) : Except Err Table :=
  cellOpF (t.unknownCellCount + 1) COp.deleteOp t row column

/-- One score of the branching heuristic:
`rowCounts[r][v] + columnCounts[c][v] - 1` in unsigned arithmetic (the
subtraction wraps around when both counts are zero). -/
def candScore (t : Table) (r c v : Nat) : Nat :=
  (t.rowCount r v + t.colCount c v + 4294967295) % 4294967296

/-- The `(r, c, v)` triples visited by the three nested loops of
`getFinalizeCandidatePos`, in iteration order: row-major positions, values
`1..size` innermost. -/
def candList (t : Table) : List (Nat × Nat × Nat) :=
  (List.range t.size).flatMap (fun r =>
    (List.range t.size).flatMap (fun c =>
      (List.range' 1 t.size).map (fun v => (r, c, v))))

/-- Whether the triple's cell is Unknown (the guard inside the `v` loop). -/
def unknownCand (t : Table) (x : Nat × Nat × Nat) : Bool :=
  (t.cellAt x.1 x.2.1).state == CState.unknown

/-- One iteration of the `getFinalizeCandidatePos` loops on the accumulator
`(rMax, cMax, maxCount)`: a strictly larger score of an Unknown cell replaces
the current maximum. -/
def candStep (t : Table) (acc : Nat × Nat × Nat) (x : Nat × Nat × Nat) : Nat × Nat × Nat :=
  if unknownCand t x then
    let actCount := candScore t x.1 x.2.1 x.2.2
    if acc.2.2 < actCount then (x.1, x.2.1, actCount) else acc
  else acc

/-- `Table::getFinalizeCandidatePos`. -/
def Table.getFinalizeCandidatePos (t : Table) : Nat × Nat :=
  let res := (candList t).foldl (candStep t) (0, 0, 0)
  (res.1, res.2.1)

/-- The recursive solver `solve`, fuel-indexed: propagate unique cells, return
if solved, otherwise finalize the heuristic candidate on a copy and recurse;
if that branch fails with the puzzle contradiction `NoSolutionExists`, delete
the candidate on the original board and recurse; every other error
propagates. -/
def solveF : Nat → Table → Except Err Table
  | 0, _ => Except.error Err.fuelExhausted
  | f + 1, t =>
    let tu := t.finalizeUniqueCells
    if tu.isSolved then Except.ok tu
    else
      let pos := tu.getFinalizeCandidatePos
      match (do
        let tc ← tu.finalizeCell pos.1 pos.2
        solveF f tc : Except Err Table) with
      | Except.ok r => Except.ok r
      | Except.error (Err.noSolution _) => do
        let t1 ← tu.deleteCell pos.1 pos.2
        solveF f t1
      | Except.error e => Except.error e

/-- `solve`, with `unknownCellCount + 1` units of fuel (each recursion level
strictly decreases `unknownCellCount`). -/
def solve (t : Table) : Except Err Table := solveF (t.unknownCellCount + 1) t

/-- Reading a puzzle and solving it: `solve(Table(values))` as invoked by
`main` on validated input. -/
def solveInit (initValues : List (List Nat)) : Except Err Table :=
  (mkTable initValues).bind solve

/-- Number of Deleted cells on the board. -/
def deletedCount (t : Table) : Nat :=
  (t.cells.map (fun row => row.countP (fun cell => cell.state == CState.deleted))).sum

end Hitori

namespace Hitori

/-! ### Consistency invariant of a board -/

/-- Number of Unknown cells of value `v` stored in row `r` of the grid. -/
def rowUnknownCount (t : Table) (r v : Nat) : Nat :=
  (t.cells.getD r []).countP (fun cell => cell.value == v && cell.state == CState.unknown)

/-- Number of Unknown cells of value `v` stored in column `c` of the grid. -/
def colUnknownCount (t : Table) (c v : Nat) : Nat :=
  t.cells.countP (fun row =>
    (row.getD c ⟨0, CState.deleted⟩).value == v &&
    (row.getD c ⟨0, CState.deleted⟩).state == CState.unknown)

/-- Total number of Unknown cells in the grid. -/
def totalUnknown (t : Table) : Nat :=
  (t.cells.map (fun row => row.countP (fun cell => cell.state == CState.unknown))).sum

/-- Consistency of a board: well-formed dimensions for a machine-representable
size, cell values in `[1, size]`, the count caches equal to the actual counts
of Unknown cells, and `unknownCellCount` equal to the actual number of Unknown
cells.  A freshly constructed `Table` satisfies `TableInv` and all engine
operations preserve it. -/
def TableInv (t : Table) : Prop :=
  t.size ≤ 65535 ∧
  t.cells.length = t.size ∧
  (∀ row ∈ t.cells, row.length = t.size) ∧
  t.rowCounts.length = t.size ∧
  (∀ l ∈ t.rowCounts, l.length = t.size + 1) ∧
  t.columnCounts.length = t.size ∧
  (∀ l ∈ t.columnCounts, l.length = t.size + 1) ∧
  (∀ row ∈ t.cells, ∀ cell ∈ row, 1 ≤ cell.value ∧ cell.value ≤ t.size) ∧
  (∀ r < t.size, ∀ v < t.size + 1, t.rowCount r v = rowUnknownCount t r v) ∧
  (∀ c < t.size, ∀ v < t.size + 1, t.colCount c v = colUnknownCount t c v) ∧
  t.unknownCellCount = totalUnknown t

instance (t : Table) : Decidable (TableInv t) := by unfold TableInv; infer_instance

/-- Board states reachable from a freshly constructed `Table` by sequences of
`finalizeUniqueCells`, `finalizeCell` and `deleteCell` invocations that do not
raise (the failing invocations produce no board). -/
inductive Reachable : Table → Prop where
  | base (initValues : List (List Nat)) (t : Table) :
      initValues.length ≤ 65535 → mkTable initValues = Except.ok t → Reachable t
  | uniq (t : Table) : Reachable t → Reachable t.finalizeUniqueCells
  | fin (t t' : Table) (r c : Nat) :
      Reachable t → t.finalizeCell r c = Except.ok t' → Reachable t'
  | del (t t' : Table) (r c : Nat) :
      Reachable t → t.deleteCell r c = Except.ok t' → Reachable t'

/-- The maximum of the heuristic scores of the Unknown candidates of `l`,
accumulated from `a` (specification-side description of the `maxCount`
variable of `getFinalizeCandidatePos`). -/
def scanMax (t : Table) (l : List (Nat × Nat × Nat)) (a : Nat) : Nat :=
  l.foldl (fun m x => if unknownCand t x then Nat.max m (candScore t x.1 x.2.1 x.2.2) else m) a

/-- The maximum heuristic score over the whole scan. -/
def maxCandScore (t : Table) : Nat := scanMax t (candList t) 0

/-- A consistent 3×3 board with `(2,0)` already Deleted; used to exercise
`deleteCell` at `(0,0)`, whose own orthogonal neighbours are all Unknown. -/
def tableC4 : Table :=
  { size := 3
    cells := [
      [⟨1, CState.unknown⟩, ⟨2, CState.unknown⟩, ⟨3, CState.unknown⟩],
      [⟨3, CState.unknown⟩, ⟨1, CState.unknown⟩, ⟨2, CState.unknown⟩],
      [⟨3, CState.deleted⟩, ⟨2, CState.unknown⟩, ⟨1, CState.unknown⟩]]
    rowCounts := [[0, 1, 1, 1], [0, 1, 1, 1], [0, 1, 1, 0]]
    columnCounts := [[0, 1, 0, 1], [0, 1, 2, 0], [0, 1, 1, 1]]
    unknownCellCount := 8
    deletedTrees := ⟨[7, -1, -1, -1, -1, -1, -1, -2, -1, -1]⟩ }

/-- A consistent 2×2 board whose column 0 holds a Final 1 above an Unknown 1;
used to exercise `finalizeCell` at `(1,0)`. -/
def tableC5 : Table :=
  { size := 2
    cells := [[⟨1, CState.final⟩, ⟨2, CState.unknown⟩],
              [⟨1, CState.unknown⟩, ⟨2, CState.unknown⟩]]
    rowCounts := [[0, 0, 1], [0, 1, 1]]
    columnCounts := [[0, 1, 0], [0, 0, 2]]
    unknownCellCount := 3
    deletedTrees := ⟨[-1, -1, -1, -1, -1]⟩ }

/-- The board constructed from the all-ones 2×2 grid. -/
def tableAllOnes : Table :=
  { size := 2
    cells := [[⟨1, CState.unknown⟩, ⟨1, CState.unknown⟩],
              [⟨1, CState.unknown⟩, ⟨1, CState.unknown⟩]]
    rowCounts := [[0, 2, 0], [0, 2, 0]]
    columnCounts := [[0, 2, 0], [0, 2, 0]]
    unknownCellCount := 4
    deletedTrees := ⟨[-1, -1, -1, -1, -1]⟩ }

/-- The board constructed from the 1×1 grid `[[1]]`. -/
def tableOne : Table :=
  { size := 1
    cells := [[⟨1, CState.unknown⟩]]
    rowCounts := [[0, 1]]
    columnCounts := [[0, 1]]
    unknownCellCount := 1
    deletedTrees := ⟨[-1, -1]⟩ }

/-- The solved board produced from the 1×1 grid `[[1]]`. -/
def tableOneSolved : Table :=
  { size := 1
    cells := [[⟨1, CState.final⟩]]
    rowCounts := [[0, 0]]
    columnCounts := [[0, 0]]
    unknownCellCount := 0
    deletedTrees := ⟨[-1, -1]⟩ }

/-- The behaviour of `finalizeCell` on an Unknown target, stated from the
spec's words as amended: set Final, decrement the three counts, then scan the
column and then the row for same-value conflicts, each scan only when the
decremented count of that value is still positive. -/
def finalizeCellSpec (t : Table) (row column : Nat) : Except Err Table :=
  let value := (t.cellAt row column).value
  let t1 := t.markCell row column CState.final
  do
    let t2 ←
      if 0 < t1.colCount column value then
        colScanRun (cellOpF t.unknownCellCount COp.deleteOp) value row column t1
      else Except.ok t1
    if 0 < t2.rowCount row value then
      rowScanRun (cellOpF t.unknownCellCount COp.deleteOp) value row column t2
    else Except.ok t2

/-! ### Elementary list lemmas -/

theorem set_of_length_le {α : Type} (l : List α) (i : Nat) (a : α) (h : l.length ≤ i) :
    l.set i a = l := by
  induction l generalizing i with
  | nil => rfl
  | cons x xs ih =>
    cases i with
    | zero => simp at h
    | succ j => simp only [List.set]; rw [ih j (by simpa using h)]

theorem getD_set_self {α : Type} (l : List α) (i : Nat) (a d : α) (h : i < l.length) :
    (l.set i a).getD i d = a := by
  induction l generalizing i with
  | nil => simp at h
  | cons x xs ih =>
    cases i with
    | zero => rfl
    | succ j => simpa using ih j (by simpa using h)

theorem getD_set_ne {α : Type} (l : List α) (i j : Nat) (a d : α) (h : i ≠ j) :
    (l.set i a).getD j d = l.getD j d := by
  induction l generalizing i j with
  | nil => rfl
  | cons x xs ih =>
    cases i with
    | zero => cases j with
      | zero => exact absurd rfl h
      | succ j2 => rfl
    | succ i2 => cases j with
      | zero => rfl
      | succ j2 => simpa using ih i2 j2 (by omega)

theorem countP_set {α : Type} (p : α → Bool) (l : List α) (i : Nat) (a d : α)
    (h : i < l.length) :
    (l.set i a).countP p + (if p (l.getD i d) then 1 else 0)
      = l.countP p + (if p a then 1 else 0) := by
  induction l generalizing i with
  | nil => simp at h
  | cons x xs ih =>
    cases i with
    | zero =>
      simp only [List.set, List.getD_cons_zero, List.countP_cons]
      omega
    | succ j =>
      have := ih j (by simpa using h)
      simp only [List.set, List.getD_cons_succ, List.countP_cons]
      omega

theorem sum_set_nat (l : List Nat) (i : Nat) (a : Nat) (h : i < l.length) :
    (l.set i a).sum + l.getD i 0 = l.sum + a := by
  induction l generalizing i with
  | nil => simp at h
  | cons x xs ih =>
    cases i with
    | zero => simp [List.set]; omega
    | succ j =>
      have := ih j (by simpa using h)
      simp only [List.set, List.getD_cons_succ, List.sum_cons]
      omega

theorem getD_mem_of_lt {α : Type} (l : List α) (i : Nat) (d : α) (h : i < l.length) :
    l.getD i d ∈ l := by
  induction l generalizing i with
  | nil => simp at h
  | cons x xs ih =>
    cases i with
    | zero => exact List.mem_cons_self x xs
    | succ j => exact List.mem_cons_of_mem x (ih j (by simpa using h))

end Hitori

namespace Hitori

theorem getD_of_length_le {α : Type} (l : List α) (i : Nat) (d : α) (h : l.length ≤ i) :
    l.getD i d = d := by
  induction l generalizing i with
  | nil => cases i <;> rfl
  | cons x xs ih =>
    cases i with
    | zero => simp at h
    | succ j => simpa using ih j (by simpa using h)

theorem getD_map_of_lt {α β : Type} (f : α → β) (l : List α) (i : Nat) (d : β) (d2 : α)
    (h : i < l.length) : (l.map f).getD i d = f (l.getD i d2) := by
  induction l generalizing i with
  | nil => simp at h
  | cons x xs ih =>
    cases i with
    | zero => rfl
    | succ j => simpa using ih j (by simpa using h)

theorem getD_le_sum (l : List Nat) (i : Nat) : l.getD i 0 ≤ l.sum := by
  induction l generalizing i with
  | nil => simp [List.getD]
  | cons x xs ih =>
    cases i with
    | zero => simp
    | succ j =>
      have := ih j
      simp only [List.getD_cons_succ, List.sum_cons]
      omega

theorem sum_le_length_mul (l : List Nat) (B : Nat) (h : ∀ x ∈ l, x ≤ B) :
    l.sum ≤ l.length * B := by
  induction l with
  | nil => simp
  | cons x xs ih =>
    have h1 := h x (List.mem_cons_self x xs)
    have h2 := ih (fun y hy => h y (List.mem_cons_of_mem x hy))
    simp only [List.sum_cons, List.length_cons]
    calc x + xs.sum ≤ B + xs.length * B := by omega
    _ = (xs.length + 1) * B := by ring

/-- On an `unsigned` value that is positive and representable, the wrapping
decrement is the arithmetic decrement. -/
theorem udec_of_pos (x : Nat) (h1 : 1 ≤ x) (h2 : x ≤ 4294967295) : udec x = x - 1 := by
  unfold udec; omega

theorem state_beq_unknown_false (s : CState) (h : s ≠ CState.unknown) :
    (s == CState.unknown) = false := by
  cases s <;> simp_all

/-- A cell reported Unknown is a genuine grid entry: the out-of-range dummy is
Deleted. -/
theorem unknown_in_range (t : Table) (r c : Nat)
    (h : (t.cellAt r c).state = CState.unknown) :
    r < t.cells.length ∧ c < (t.cells.getD r []).length := by
  constructor
  · by_contra hr
    push_neg at hr
    rw [Table.cellAt, getD_of_length_le _ _ _ hr] at h
    simp [List.getD] at h
  · by_contra hc
    push_neg at hc
    rw [Table.cellAt, getD_of_length_le _ _ _ hc] at h
    simp at h

theorem markCell_cells (t : Table) (r c : Nat) (s : CState) :
    (t.markCell r c s).cells
      = t.cells.set r ((t.cells.getD r []).set c ⟨(t.cellAt r c).value, s⟩) := rfl

theorem markCell_size (t : Table) (r c : Nat) (s : CState) :
    (t.markCell r c s).size = t.size := rfl

theorem markCell_rowCounts (t : Table) (r c : Nat) (s : CState) :
    (t.markCell r c s).rowCounts
      = t.rowCounts.set r ((t.rowCounts.getD r []).set (t.cellAt r c).value
          (udec ((t.rowCounts.getD r []).getD (t.cellAt r c).value 0))) := rfl

theorem markCell_columnCounts (t : Table) (r c : Nat) (s : CState) :
    (t.markCell r c s).columnCounts
      = t.columnCounts.set c ((t.columnCounts.getD c []).set (t.cellAt r c).value
          (udec ((t.columnCounts.getD c []).getD (t.cellAt r c).value 0))) := rfl

theorem markCell_count (t : Table) (r c : Nat) (s : CState) :
    (t.markCell r c s).unknownCellCount = udec t.unknownCellCount := rfl

/-- The state-change-plus-decrements block preserves consistency and performs
a genuine decrement of `unknownCellCount`. -/
theorem markCell_inv (t : Table) (r c : Nat) (s : CState)
    (hInv : TableInv t) (hu : (t.cellAt r c).state = CState.unknown)
    (hs : s ≠ CState.unknown) :
    TableInv (t.markCell r c s)
      ∧ (t.markCell r c s).unknownCellCount + 1 = t.unknownCellCount
      ∧ 0 < t.unknownCellCount := by
  obtain ⟨hsz, hcl, hrowlen, hrcl, hrclen, hccl, hcclen, hval, hrc, hcc, hcount⟩ := hInv
  obtain ⟨hrlt, hclt⟩ := unknown_in_range t r c hu
  have hr : r < t.size := hcl ▸ hrlt
  have hrowmem : t.cells.getD r [] ∈ t.cells := getD_mem_of_lt _ _ _ hrlt
  have hrowsz : (t.cells.getD r []).length = t.size := hrowlen _ hrowmem
  have hc : c < t.size := hrowsz ▸ hclt
  have hcellmem : (t.cells.getD r []).getD c ⟨0, CState.deleted⟩ ∈ t.cells.getD r [] :=
    getD_mem_of_lt _ _ _ hclt
  have hcellAt : t.cellAt r c = (t.cells.getD r []).getD c ⟨0, CState.deleted⟩ := rfl
  have hv : 1 ≤ (t.cellAt r c).value ∧ (t.cellAt r c).value ≤ t.size := by
    rw [hcellAt]; exact hval _ hrowmem _ hcellmem
  have hv1 : (t.cellAt r c).value < t.size + 1 := by omega
  have hrclt : r < t.rowCounts.length := by omega
  have hrlmem : t.rowCounts.getD r [] ∈ t.rowCounts := getD_mem_of_lt _ _ _ hrclt
  have hrlsz : (t.rowCounts.getD r []).length = t.size + 1 := hrclen _ hrlmem
  have hcclt : c < t.columnCounts.length := by omega
  have hclmem : t.columnCounts.getD c [] ∈ t.columnCounts := getD_mem_of_lt _ _ _ hcclt
  have hclsz : (t.columnCounts.getD c []).length = t.size + 1 := hcclen _ hclmem
  -- the row-count predicate on the old cell, its replacement, and other values
  have hpold : (((t.cells.getD r []).getD c ⟨0, CState.deleted⟩).value == (t.cellAt r c).value
      && ((t.cells.getD r []).getD c ⟨0, CState.deleted⟩).state == CState.unknown) = true := by
    rw [← hcellAt]; simp [hu]
  have hpnewAll : ∀ v : Nat, (((⟨(t.cellAt r c).value, s⟩ : Cell).value == v)
      && ((⟨(t.cellAt r c).value, s⟩ : Cell).state == CState.unknown)) = false := by
    intro v; simp [state_beq_unknown_false s hs]
  have hpoldNe : ∀ v : Nat, (t.cellAt r c).value ≠ v →
      (((t.cells.getD r []).getD c ⟨0, CState.deleted⟩).value == v
        && ((t.cells.getD r []).getD c ⟨0, CState.deleted⟩).state == CState.unknown) = false := by
    intro v hne
    rw [← hcellAt]
    simp only [hu, beq_self_eq_true, Bool.and_true, beq_eq_false_iff_ne]
    exact hne
  have hnewneg : ∀ v : Nat, ¬((((⟨(t.cellAt r c).value, s⟩ : Cell).value == v)
      && ((⟨(t.cellAt r c).value, s⟩ : Cell).state == CState.unknown)) = true) := by
    intro v h
    rw [hpnewAll v] at h
    simp at h
  have holdneg : ∀ v : Nat, (t.cellAt r c).value ≠ v →
      ¬((((t.cells.getD r []).getD c ⟨0, CState.deleted⟩).value == v
        && ((t.cells.getD r []).getD c ⟨0, CState.deleted⟩).state == CState.unknown) = true) := by
    intro v hne h
    rw [hpoldNe v hne] at h
    simp at h
  -- effect of the cell replacement on the per-value row counts
  have hcntEq : ((t.cells.getD r []).set c ⟨(t.cellAt r c).value, s⟩).countP
        (fun cell => cell.value == (t.cellAt r c).value && cell.state == CState.unknown) + 1
      = (t.cells.getD r []).countP
        (fun cell => cell.value == (t.cellAt r c).value && cell.state == CState.unknown) := by
    have h := countP_set
      (fun cell => cell.value == (t.cellAt r c).value && cell.state == CState.unknown)
      (t.cells.getD r []) c ⟨(t.cellAt r c).value, s⟩ ⟨0, CState.deleted⟩ hclt
    rw [if_pos hpold, if_neg (hnewneg _)] at h
    omega
  have hcntNe : ∀ v : Nat, (t.cellAt r c).value ≠ v →
      ((t.cells.getD r []).set c ⟨(t.cellAt r c).value, s⟩).countP
        (fun cell => cell.value == v && cell.state == CState.unknown)
      = (t.cells.getD r []).countP
        (fun cell => cell.value == v && cell.state == CState.unknown) := by
    intro v hne
    have h := countP_set
      (fun cell => cell.value == v && cell.state == CState.unknown)
      (t.cells.getD r []) c ⟨(t.cellAt r c).value, s⟩ ⟨0, CState.deleted⟩ hclt
    rw [if_neg (holdneg v hne), if_neg (hnewneg v)] at h
    omega
  -- the decremented counts are positive and representable
  have hposrow : 0 < rowUnknownCount t r (t.cellAt r c).value := by
    rw [rowUnknownCount, List.countP_pos_iff]
    exact ⟨_, hcellmem, hpold⟩
  have hlerow : rowUnknownCount t r (t.cellAt r c).value ≤ t.size := by
    rw [rowUnknownCount]
    calc (t.cells.getD r []).countP _ ≤ (t.cells.getD r []).length :=
          List.countP_le_length _
    _ = t.size := hrowsz
  have hposcol : 0 < colUnknownCount t c (t.cellAt r c).value := by
    rw [colUnknownCount, List.countP_pos_iff]
    exact ⟨_, hrowmem, hpold⟩
  have hlecol : colUnknownCount t c (t.cellAt r c).value ≤ t.size := by
    rw [colUnknownCount]
    calc t.cells.countP _ ≤ t.cells.length := List.countP_le_length _
    _ = t.size := hcl
  -- total number of unknown cells: positive and bounded
  have htotpos : 0 < totalUnknown t := by
    rw [totalUnknown]
    have h0 : 0 < (t.cells.getD r []).countP (fun cell => cell.state == CState.unknown) := by
      rw [List.countP_pos_iff]
      exact ⟨_, hcellmem, by rw [← hcellAt]; simp [hu]⟩
    have h1 : (t.cells.map (fun row => row.countP (fun cell => cell.state == CState.unknown))).getD r 0
        = (t.cells.getD r []).countP (fun cell => cell.state == CState.unknown) :=
      getD_map_of_lt _ _ _ _ [] hrlt
    have h2 := getD_le_sum (t.cells.map (fun row => row.countP (fun cell => cell.state == CState.unknown))) r
    omega
  have htotle : totalUnknown t ≤ t.size * t.size := by
    rw [totalUnknown]
    have h1 : ∀ x ∈ t.cells.map (fun row => row.countP (fun cell => cell.state == CState.unknown)),
        x ≤ t.size := by
      intro x hx
      obtain ⟨row, hrowm, hxeq⟩ := List.mem_map.mp hx
      subst hxeq
      calc row.countP _ ≤ row.length := List.countP_le_length _
      _ = t.size := hrowlen _ hrowm
    have h2 := sum_le_length_mul _ _ h1
    simpa [hcl] using h2
  have hsz2 : t.size * t.size ≤ 4294967295 := by nlinarith
  refine ⟨⟨?_, ?_, ?_, ?_, ?_, ?_, ?_, ?_, ?_, ?_, ?_⟩, ?_, ?_⟩
  · exact hsz
  · rw [markCell_cells, markCell_size, List.length_set]; exact hcl
  · rw [markCell_cells, markCell_size]
    intro row hmem
    rcases List.mem_or_eq_of_mem_set hmem with h | h
    · exact hrowlen _ h
    · subst h; rw [List.length_set]; exact hrowsz
  · rw [markCell_rowCounts, markCell_size, List.length_set]; exact hrcl
  · rw [markCell_rowCounts, markCell_size]
    intro l hmem
    rcases List.mem_or_eq_of_mem_set hmem with h | h
    · exact hrclen _ h
    · subst h; rw [List.length_set]; exact hrlsz
  · rw [markCell_columnCounts, markCell_size, List.length_set]; exact hccl
  · rw [markCell_columnCounts, markCell_size]
    intro l hmem
    rcases List.mem_or_eq_of_mem_set hmem with h | h
    · exact hcclen _ h
    · subst h; rw [List.length_set]; exact hclsz
  · rw [markCell_cells, markCell_size]
    intro row hmem cell hcmem
    rcases List.mem_or_eq_of_mem_set hmem with h | h
    · exact hval _ h _ hcmem
    · subst h
      rcases List.mem_or_eq_of_mem_set hcmem with h2 | h2
      · exact hval _ hrowmem _ h2
      · subst h2; exact hv
  · -- row counts stay consistent
    intro r' hr' v' hv'
    rw [markCell_size] at hr' hv'
    have hrcg : (t.markCell r c s).rowCount r' v'
        = ((t.rowCounts.set r ((t.rowCounts.getD r []).set (t.cellAt r c).value
            (udec ((t.rowCounts.getD r []).getD (t.cellAt r c).value 0)))).getD r' []).getD v' 0 := rfl
    have hrug : rowUnknownCount (t.markCell r c s) r' v'
        = ((t.cells.set r ((t.cells.getD r []).set c ⟨(t.cellAt r c).value, s⟩)).getD r' []).countP
            (fun cell => cell.value == v' && cell.state == CState.unknown) := rfl
    by_cases hrr : r = r'
    · subst hrr
      rw [hrcg, hrug, getD_set_self _ _ _ _ hrclt, getD_set_self _ _ _ _ hrlt]
      by_cases hvv : (t.cellAt r c).value = v'
      · subst hvv
        rw [getD_set_self _ _ _ _ (by omega)]
        have h2 : t.rowCount r (t.cellAt r c).value
            = rowUnknownCount t r (t.cellAt r c).value := hrc r hr' _ hv1
        have h4 : (t.rowCounts.getD r []).getD (t.cellAt r c).value 0
            = t.rowCount r (t.cellAt r c).value := rfl
        rw [h4, udec_of_pos _ (by rw [h2]; omega) (by omega)]
        rw [rowUnknownCount] at h2
        omega
      · rw [getD_set_ne _ _ _ _ _ hvv]
        have h2 : t.rowCount r v' = rowUnknownCount t r v' := hrc r hr' v' hv'
        rw [rowUnknownCount] at h2
        rw [hcntNe v' hvv]
        exact h2
    · rw [hrcg, hrug, getD_set_ne _ _ _ _ _ hrr, getD_set_ne _ _ _ _ _ hrr]
      exact hrc r' hr' v' hv'
  · -- column counts stay consistent
    intro c' hc' v' hv'
    rw [markCell_size] at hc' hv'
    have hccg : (t.markCell r c s).colCount c' v'
        = ((t.columnCounts.set c ((t.columnCounts.getD c []).set (t.cellAt r c).value
            (udec ((t.columnCounts.getD c []).getD (t.cellAt r c).value 0)))).getD c' []).getD v' 0 := rfl
    have hcug : colUnknownCount (t.markCell r c s) c' v'
        = (t.cells.set r ((t.cells.getD r []).set c ⟨(t.cellAt r c).value, s⟩)).countP
            (fun row => (row.getD c' ⟨0, CState.deleted⟩).value == v'
              && (row.getD c' ⟨0, CState.deleted⟩).state == CState.unknown) := rfl
    have hcellset := countP_set
      (fun row => (row.getD c' ⟨0, CState.deleted⟩).value == v'
        && (row.getD c' ⟨0, CState.deleted⟩).state == CState.unknown)
      t.cells r ((t.cells.getD r []).set c ⟨(t.cellAt r c).value, s⟩) [] hrlt
    simp only [] at hcellset
    by_cases hcc2 : c = c'
    · subst hcc2
      rw [hccg, hcug, getD_set_self _ _ _ _ hcclt]
      have hgnew : (((t.cells.getD r []).set c ⟨(t.cellAt r c).value, s⟩).getD c ⟨0, CState.deleted⟩)
          = ⟨(t.cellAt r c).value, s⟩ := getD_set_self _ _ _ _ hclt
      simp only [hgnew] at hcellset
      by_cases hvv : (t.cellAt r c).value = v'
      · subst hvv
        rw [getD_set_self _ _ _ _ (by omega)]
        rw [if_pos hpold, if_neg (hnewneg _)] at hcellset
        have h2 : t.colCount c (t.cellAt r c).value
            = colUnknownCount t c (t.cellAt r c).value := hcc c hc' _ hv1
        have h4 : (t.columnCounts.getD c []).getD (t.cellAt r c).value 0
            = t.colCount c (t.cellAt r c).value := rfl
        rw [h4, udec_of_pos _ (by rw [h2]; omega) (by omega)]
        rw [colUnknownCount] at h2
        omega
      · rw [getD_set_ne _ _ _ _ _ hvv]
        rw [if_neg (holdneg v' hvv), if_neg (hnewneg v')] at hcellset
        have h2 : t.colCount c v' = colUnknownCount t c v' := hcc c hc' v' hv'
        rw [colUnknownCount] at h2
        have h4 : (t.columnCounts.getD c []).getD v' 0 = t.colCount c v' := rfl
        rw [h4]
        omega
    · rw [hccg, hcug, getD_set_ne _ _ _ _ _ hcc2]
      have hgold : (((t.cells.getD r []).set c ⟨(t.cellAt r c).value, s⟩).getD c' ⟨0, CState.deleted⟩)
          = (t.cells.getD r []).getD c' ⟨0, CState.deleted⟩ :=
        getD_set_ne _ _ _ _ _ hcc2
      simp only [hgold] at hcellset
      have h2 : t.colCount c' v' = colUnknownCount t c' v' := hcc c' hc' v' hv'
      rw [colUnknownCount] at h2
      have h4 : (t.columnCounts.getD c' []).getD v' 0 = t.colCount c' v' := rfl
      rw [h4]
      omega
  · -- unknownCellCount stays consistent
    have hnew : totalUnknown (t.markCell r c s) + 1 = totalUnknown t := by
      rw [totalUnknown, totalUnknown, markCell_cells, List.map_set]
      have hsum := sum_set_nat
        (t.cells.map (fun row => row.countP (fun cell => cell.state == CState.unknown))) r
        (((t.cells.getD r []).set c ⟨(t.cellAt r c).value, s⟩).countP
          (fun cell => cell.state == CState.unknown))
        (by rw [List.length_map]; exact hrlt)
      have hgd : (t.cells.map (fun row => row.countP (fun cell => cell.state == CState.unknown))).getD r 0
          = (t.cells.getD r []).countP (fun cell => cell.state == CState.unknown) :=
        getD_map_of_lt _ _ _ _ [] hrlt
      have hrowdec := countP_set (fun cell => cell.state == CState.unknown)
        (t.cells.getD r []) c ⟨(t.cellAt r c).value, s⟩ ⟨0, CState.deleted⟩ hclt
      have hst1 : (((t.cells.getD r []).getD c ⟨0, CState.deleted⟩).state == CState.unknown) = true := by
        rw [← hcellAt]; simp [hu]
      have hst2 : ¬(((⟨(t.cellAt r c).value, s⟩ : Cell).state == CState.unknown) = true) := by
        simp [state_beq_unknown_false s hs]
      rw [if_pos hst1, if_neg hst2] at hrowdec
      rw [hgd] at hsum
      omega
    rw [markCell_count, hcount]
    rw [udec_of_pos _ htotpos (by omega)]
    omega
  · rw [markCell_count, hcount]
    rw [udec_of_pos _ htotpos (by omega)]
    omega
  · omega

end Hitori

namespace Hitori

/-- When its guard holds, the `finalizeUniqueCells` step is exactly a
`markCell` to Final: the two counts it sets to zero are equal to one, so the
wrapping decrement produces the same zero. -/
theorem uniqueStep_inv (t : Table) (p : Nat × Nat) (hInv : TableInv t) :
    TableInv (uniqueStep t p)
      ∧ (uniqueStep t p).unknownCellCount ≤ t.unknownCellCount := by
  unfold uniqueStep
  split
  · next hcond =>
    have hu := hcond.1
    have hrc1 := hcond.2.1
    have hcc1 := hcond.2.2
    have h1 : udec ((t.rowCounts.getD p.1 []).getD (t.cellAt p.1 p.2).value 0) = 0 := by
      have h : (t.rowCounts.getD p.1 []).getD (t.cellAt p.1 p.2).value 0 = 1 := hrc1
      rw [h]; rfl
    have h2 : udec ((t.columnCounts.getD p.2 []).getD (t.cellAt p.1 p.2).value 0) = 0 := by
      have h : (t.columnCounts.getD p.2 []).getD (t.cellAt p.1 p.2).value 0 = 1 := hcc1
      rw [h]; rfl
    have hEq : ({ t.setCellState p.1 p.2 CState.final with
        rowCounts := (t.setCellState p.1 p.2 CState.final).rowCounts.set p.1
          (((t.setCellState p.1 p.2 CState.final).rowCounts.getD p.1 []).set
            (t.cellAt p.1 p.2).value 0)
        columnCounts := (t.setCellState p.1 p.2 CState.final).columnCounts.set p.2
          (((t.setCellState p.1 p.2 CState.final).columnCounts.getD p.2 []).set
            (t.cellAt p.1 p.2).value 0)
        unknownCellCount := udec (t.setCellState p.1 p.2 CState.final).unknownCellCount } : Table)
        = t.markCell p.1 p.2 CState.final := by
      simp only [Table.markCell, Table.decCounts, Table.setCellState, h1, h2]
    rw [hEq]
    have h3 := markCell_inv t p.1 p.2 CState.final hInv hu (by simp)
    exact ⟨h3.1, by omega⟩
  · exact ⟨hInv, le_refl _⟩

theorem foldl_uniqueStep_inv (l : List (Nat × Nat)) (t : Table) (hInv : TableInv t) :
    TableInv (l.foldl uniqueStep t)
      ∧ (l.foldl uniqueStep t).unknownCellCount ≤ t.unknownCellCount := by
  induction l generalizing t with
  | nil => exact ⟨hInv, le_refl _⟩
  | cons p ps ih =>
    have h1 := uniqueStep_inv t p hInv
    have h2 := ih (uniqueStep t p) h1.1
    exact ⟨h2.1, le_trans h2.2 h1.2⟩

/-- `finalizeUniqueCells` preserves consistency and never increases the number
of Unknown cells. -/
theorem finalizeUniqueCells_inv (t : Table) (hInv : TableInv t) :
    TableInv t.finalizeUniqueCells
      ∧ t.finalizeUniqueCells.unknownCellCount ≤ t.unknownCellCount :=
  foldl_uniqueStep_inv (posList t.size) t hInv

/-! ### Generic lemmas about `foldlM` in the `Except` monad -/

theorem bindE_error {α β : Type} (e : Err) (f : α → Except Err β) :
    (Except.error e >>= f : Except Err β) = Except.error e := rfl

theorem bindE_ok {α β : Type} (a : α) (f : α → Except Err β) :
    (Except.ok a >>= f : Except Err β) = f a := rfl

theorem foldlM_ok_pres {α : Type} (g : Table → α → Except Err Table) (l : List α)
    (H : ∀ s a, a ∈ l → TableInv s →
      ∀ s', g s a = Except.ok s' → TableInv s' ∧ s'.unknownCellCount ≤ s.unknownCellCount) :
    ∀ t t', TableInv t → l.foldlM g t = Except.ok t' →
      TableInv t' ∧ t'.unknownCellCount ≤ t.unknownCellCount := by
  induction l with
  | nil =>
    intro t t' hInv hfold
    rw [List.foldlM_nil] at hfold
    cases hfold
    exact ⟨hInv, le_refl _⟩
  | cons a as ih =>
    intro t t' hInv hfold
    rw [List.foldlM_cons] at hfold
    cases hg : g t a with
    | error e => rw [hg, bindE_error] at hfold; cases hfold
    | ok t1 =>
      rw [hg, bindE_ok] at hfold
      have h1 := H t a (List.mem_cons_self a as) hInv t1 hg
      have h2 := ih (fun s b hb => H s b (List.mem_cons_of_mem a hb)) t1 t' h1.1 hfold
      exact ⟨h2.1, le_trans h2.2 h1.2⟩

theorem foldlM_ne_fuel {α : Type} (g : Table → α → Except Err Table) (l : List α) (N : Nat)
    (Hok : ∀ s a, a ∈ l → TableInv s →
      ∀ s', g s a = Except.ok s' → TableInv s' ∧ s'.unknownCellCount ≤ s.unknownCellCount)
    (Hne : ∀ s a, a ∈ l → TableInv s → s.unknownCellCount ≤ N →
      g s a ≠ Except.error Err.fuelExhausted) :
    ∀ t, TableInv t → t.unknownCellCount ≤ N →
      l.foldlM g t ≠ Except.error Err.fuelExhausted := by
  induction l with
  | nil =>
    intro t _ _ hfold
    rw [List.foldlM_nil] at hfold
    cases hfold
  | cons a as ih =>
    intro t hInv hle hfold
    rw [List.foldlM_cons] at hfold
    cases hg : g t a with
    | error e =>
      rw [hg, bindE_error] at hfold
      cases hfold
      exact Hne t a (List.mem_cons_self a as) hInv hle hg
    | ok t1 =>
      rw [hg, bindE_ok] at hfold
      have h1 := Hok t a (List.mem_cons_self a as) hInv t1 hg
      exact ih (fun s b hb => Hok s b (List.mem_cons_of_mem a hb))
        (fun s b hb => Hne s b (List.mem_cons_of_mem a hb)) t1 h1.1 (by omega) hfold

theorem foldlM_ne_err {α : Type} (g : Table → α → Except Err Table) (l : List α) (E : Err)
    (H : ∀ s a, a ∈ l → g s a ≠ Except.error E) :
    ∀ t, l.foldlM g t ≠ Except.error E := by
  induction l with
  | nil =>
    intro t hfold
    rw [List.foldlM_nil] at hfold
    cases hfold
  | cons a as ih =>
    intro t hfold
    rw [List.foldlM_cons] at hfold
    cases hg : g t a with
    | error e =>
      rw [hg, bindE_error] at hfold
      cases hfold
      exact H t a (List.mem_cons_self a as) hg
    | ok t1 =>
      rw [hg, bindE_ok] at hfold
      exact ih (fun s b hb => H s b (List.mem_cons_of_mem a hb)) t1 hfold

end Hitori

namespace Hitori

/-! ### Behaviour of the scan runners under a well-behaved callback -/

theorem colScanRun_pres (deleteFn : Table → Nat → Nat → Except Err Table)
    (value row column : Nat)
    (hOk : ∀ s r c, TableInv s → ∀ s', deleteFn s r c = Except.ok s' →
      TableInv s' ∧ s'.unknownCellCount ≤ s.unknownCellCount) :
    ∀ t t', TableInv t → colScanRun deleteFn value row column t = Except.ok t' →
      TableInv t' ∧ t'.unknownCellCount ≤ t.unknownCellCount := by
  intro t t' hInv h
  unfold colScanRun at h
  refine foldlM_ok_pres _ _ ?_ t t' hInv h
  intro s a _ hInvS s' hgs
  dsimp only at hgs
  split at hgs
  · split at hgs
    · cases hgs
    · exact hOk s a column hInvS s' hgs
    · cases hgs; exact ⟨hInvS, le_refl _⟩
  · cases hgs; exact ⟨hInvS, le_refl _⟩

theorem rowScanRun_pres (deleteFn : Table → Nat → Nat → Except Err Table)
    (value row column : Nat)
    (hOk : ∀ s r c, TableInv s → ∀ s', deleteFn s r c = Except.ok s' →
      TableInv s' ∧ s'.unknownCellCount ≤ s.unknownCellCount) :
    ∀ t t', TableInv t → rowScanRun deleteFn value row column t = Except.ok t' →
      TableInv t' ∧ t'.unknownCellCount ≤ t.unknownCellCount := by
  intro t t' hInv h
  unfold rowScanRun at h
  refine foldlM_ok_pres _ _ ?_ t t' hInv h
  intro s a _ hInvS s' hgs
  dsimp only at hgs
  split at hgs
  · split at hgs
    · cases hgs
    · exact hOk s row a hInvS s' hgs
    · cases hgs; exact ⟨hInvS, le_refl _⟩
  · cases hgs; exact ⟨hInvS, le_refl _⟩

theorem orthoRun_pres (finalizeFn : Table → Nat → Nat → Except Err Table)
    (row column : Nat)
    (hOk : ∀ s r c, TableInv s → ∀ s', finalizeFn s r c = Except.ok s' →
      TableInv s' ∧ s'.unknownCellCount ≤ s.unknownCellCount) :
    ∀ t t', TableInv t → orthoRun finalizeFn t row column = Except.ok t' →
      TableInv t' ∧ t'.unknownCellCount ≤ t.unknownCellCount := by
  intro t t' hInv h
  unfold orthoRun at h
  refine foldlM_ok_pres _ _ ?_ t t' hInv h
  intro s a _ hInvS s' hgs
  dsimp only at hgs
  split at hgs
  · exact hOk s _ _ hInvS s' hgs
  · cases hgs; exact ⟨hInvS, le_refl _⟩

theorem colScanRun_ne_fuel (deleteFn : Table → Nat → Nat → Except Err Table)
    (value row column N : Nat)
    (hNe : ∀ s r c, TableInv s → s.unknownCellCount ≤ N →
      deleteFn s r c ≠ Except.error Err.fuelExhausted)
    (hOk : ∀ s r c, TableInv s → ∀ s', deleteFn s r c = Except.ok s' →
      TableInv s' ∧ s'.unknownCellCount ≤ s.unknownCellCount) :
    ∀ t, TableInv t → t.unknownCellCount ≤ N →
      colScanRun deleteFn value row column t ≠ Except.error Err.fuelExhausted := by
  intro t hInv hle
  unfold colScanRun
  refine foldlM_ne_fuel _ _ N ?_ ?_ t hInv hle
  · intro s a _ hInvS s' hgs
    dsimp only at hgs
    split at hgs
    · split at hgs
      · cases hgs
      · exact hOk s a column hInvS s' hgs
      · cases hgs; exact ⟨hInvS, le_refl _⟩
    · cases hgs; exact ⟨hInvS, le_refl _⟩
  · intro s a _ hInvS hleS hgs
    dsimp only at hgs
    split at hgs
    · split at hgs
      · cases hgs
      · exact hNe s a column hInvS hleS hgs
      · cases hgs
    · cases hgs

theorem rowScanRun_ne_fuel (deleteFn : Table → Nat → Nat → Except Err Table)
    (value row column N : Nat)
    (hNe : ∀ s r c, TableInv s → s.unknownCellCount ≤ N →
      deleteFn s r c ≠ Except.error Err.fuelExhausted)
    (hOk : ∀ s r c, TableInv s → ∀ s', deleteFn s r c = Except.ok s' →
      TableInv s' ∧ s'.unknownCellCount ≤ s.unknownCellCount) :
    ∀ t, TableInv t → t.unknownCellCount ≤ N →
      rowScanRun deleteFn value row column t ≠ Except.error Err.fuelExhausted := by
  intro t hInv hle
  unfold rowScanRun
  refine foldlM_ne_fuel _ _ N ?_ ?_ t hInv hle
  · intro s a _ hInvS s' hgs
    dsimp only at hgs
    split at hgs
    · split at hgs
      · cases hgs
      · exact hOk s row a hInvS s' hgs
      · cases hgs; exact ⟨hInvS, le_refl _⟩
    · cases hgs; exact ⟨hInvS, le_refl _⟩
  · intro s a _ hInvS hleS hgs
    dsimp only at hgs
    split at hgs
    · split at hgs
      · cases hgs
      · exact hNe s row a hInvS hleS hgs
      · cases hgs
    · cases hgs

theorem orthoRun_ne_fuel (finalizeFn : Table → Nat → Nat → Except Err Table)
    (row column N : Nat)
    (hNe : ∀ s r c, TableInv s → s.unknownCellCount ≤ N →
      finalizeFn s r c ≠ Except.error Err.fuelExhausted)
    (hOk : ∀ s r c, TableInv s → ∀ s', finalizeFn s r c = Except.ok s' →
      TableInv s' ∧ s'.unknownCellCount ≤ s.unknownCellCount) :
    ∀ t, TableInv t → t.unknownCellCount ≤ N →
      orthoRun finalizeFn t row column ≠ Except.error Err.fuelExhausted := by
  intro t hInv hle
  unfold orthoRun
  refine foldlM_ne_fuel _ _ N ?_ ?_ t hInv hle
  · intro s a _ hInvS s' hgs
    dsimp only at hgs
    split at hgs
    · exact hOk s _ _ hInvS s' hgs
    · cases hgs; exact ⟨hInvS, le_refl _⟩
  · intro s a _ hInvS hleS hgs
    dsimp only at hgs
    split at hgs
    · exact hNe s _ _ hInvS hleS hgs
    · cases hgs

/-! ### Error classes produced by the union-find phase -/

theorem findSet_errs (d : DSU) (e : Nat) (x : Err) (h : d.findSet e = Except.error x) :
    x = Err.rangeError := by
  unfold DSU.findSet at h
  split at h
  · cases h
  · cases h; rfl

theorem linkSets_errs (d : DSU) (s1 s2 : Nat) (x : Err)
    (h : d.linkSets s1 s2 = Except.error x) : x = Err.rangeError ∨ x = Err.notRoot := by
  unfold DSU.linkSets at h
  split at h
  · split at h
    · split at h
      · cases h; right; rfl
      · split at h
        · cases h
        · dsimp only at h
          split at h
          · cases h
          · split at h
            · cases h
            · cases h
    · cases h; left; rfl
  · cases h; left; rfl

theorem unionSets_errs (d : DSU) (e1 e2 : Nat) (x : Err)
    (h : d.unionSets e1 e2 = Except.error x) : x = Err.rangeError ∨ x = Err.notRoot := by
  unfold DSU.unionSets at h
  cases h1 : d.findSet e1 with
  | error y =>
    rw [h1, bindE_error] at h
    cases h
    left; exact findSet_errs d e1 x h1
  | ok p1 =>
    rw [h1, bindE_ok] at h
    cases h2 : p1.2.findSet e2 with
    | error y =>
      rw [h2, bindE_error] at h
      cases h
      left; exact findSet_errs _ e2 x h2
    | ok p2 =>
      rw [h2, bindE_ok] at h
      exact linkSets_errs _ _ _ x h

theorem diagProcess_errs (offs : List (Int × Int)) (t : Table) (row column cellSet : Nat)
    (d : DSU) (x : Err) (h : diagProcess offs t row column cellSet d = Except.error x) :
    x = Err.rangeError ∨ x = Err.notRoot ∨ x = Err.noSolution "circular neighbors found" := by
  induction offs generalizing d with
  | nil => cases h
  | cons off offs ih =>
    unfold diagProcess at h
    dsimp only at h
    split at h
    · cases h1 : d.findSet (((row : Int) + off.1).toNat * t.size + ((column : Int) + off.2).toNat + 1) with
      | error y =>
        rw [h1, bindE_error] at h
        cases h
        left; exact findSet_errs _ _ x h1
      | ok p1 =>
        rw [h1, bindE_ok] at h
        cases h2 : p1.2.findSet cellSet with
        | error y =>
          rw [h2, bindE_error] at h
          cases h
          left; exact findSet_errs _ _ x h2
        | ok p2 =>
          rw [h2, bindE_ok] at h
          split at h
          · cases h3 : p2.2.linkSets p1.1 p2.1 with
            | error y =>
              rw [h3, bindE_error] at h
              cases h
              rcases linkSets_errs _ _ _ x h3 with h4 | h4
              · left; exact h4
              · right; left; exact h4
            | ok d3 =>
              rw [h3, bindE_ok] at h
              exact ih d3 h
          · cases h; right; right; rfl
    · exact ih d h

theorem deleteChecks_errs (t : Table) (row column : Nat) (x : Err)
    (h : deleteChecks t row column = Except.error x) :
    x = Err.rangeError ∨ x = Err.notRoot ∨ x = Err.noSolution "circular neighbors found" := by
  unfold deleteChecks at h
  dsimp only at h
  split at h
  · cases h1 : t.deletedTrees.unionSets 0 (row * t.size + column + 1) with
    | error y =>
      rw [h1, bindE_error] at h
      cases h
      rcases unionSets_errs _ _ _ x h1 with h2 | h2
      · left; exact h2
      · right; left; exact h2
    | ok d0 =>
      rw [h1, bindE_ok] at h
      exact diagProcess_errs _ _ _ _ _ _ x h
  · rw [bindE_ok] at h
    exact diagProcess_errs _ _ _ _ _ _ x h

end Hitori

namespace Hitori

theorem colScanRun_ne_msc (deleteFn : Table → Nat → Nat → Except Err Table)
    (value row column : Nat)
    (hNe : ∀ s r c, (s.cellAt r c).state = CState.unknown →
      deleteFn s r c ≠ Except.error Err.multipleStateChange) :
    ∀ t, colScanRun deleteFn value row column t
      ≠ Except.error Err.multipleStateChange := by
  intro t
  unfold colScanRun
  refine foldlM_ne_err _ _ _ ?_ t
  intro s a _ hgs
  dsimp only at hgs
  split at hgs
  · split at hgs
    · cases hgs
    · rename_i heq
      exact hNe s a column heq hgs
    · cases hgs
  · cases hgs

theorem rowScanRun_ne_msc (deleteFn : Table → Nat → Nat → Except Err Table)
    (value row column : Nat)
    (hNe : ∀ s r c, (s.cellAt r c).state = CState.unknown →
      deleteFn s r c ≠ Except.error Err.multipleStateChange) :
    ∀ t, rowScanRun deleteFn value row column t
      ≠ Except.error Err.multipleStateChange := by
  intro t
  unfold rowScanRun
  refine foldlM_ne_err _ _ _ ?_ t
  intro s a _ hgs
  dsimp only at hgs
  split at hgs
  · split at hgs
    · cases hgs
    · rename_i heq
      exact hNe s row a heq hgs
    · cases hgs
  · cases hgs

theorem orthoRun_ne_msc (finalizeFn : Table → Nat → Nat → Except Err Table)
    (row column : Nat)
    (hNe : ∀ s r c, (s.cellAt r c).state = CState.unknown →
      finalizeFn s r c ≠ Except.error Err.multipleStateChange) :
    ∀ t, orthoRun finalizeFn t row column
      ≠ Except.error Err.multipleStateChange := by
  intro t
  unfold orthoRun
  refine foldlM_ne_err _ _ _ ?_ t
  intro s a _ hgs
  dsimp only at hgs
  split at hgs
  · rename_i hcond
    have h2 : (s.cellAt ((row : Int) + a.1).toNat ((column : Int) + a.2).toNat).state
        = CState.unknown := by
      simp only [Bool.and_eq_true, beq_iff_eq] at hcond
      exact hcond.2
    exact hNe s _ _ h2 hgs
  · cases hgs

/-- Core properties of the mutually recursive mutation pair: on success the
consistency invariant is preserved and `unknownCellCount` strictly decreases;
and with more fuel than Unknown cells the fuel is never exhausted. -/
theorem cellOpF_pres : ∀ (f : Nat) (op : COp) (t : Table) (row column : Nat),
    TableInv t →
    (∀ t', cellOpF f op t row column = Except.ok t' →
      TableInv t' ∧ t'.unknownCellCount < t.unknownCellCount)
    ∧ (t.unknownCellCount < f →
      cellOpF f op t row column ≠ Except.error Err.fuelExhausted) := by
  intro f
  induction f with
  | zero =>
    intro op t row column _
    constructor
    · intro t' h; simp [cellOpF] at h
    · intro h; omega
  | succ f ih =>
    intro op t row column hInv
    have ihOkD : ∀ s r c, TableInv s → ∀ s', cellOpF f COp.deleteOp s r c = Except.ok s' →
        TableInv s' ∧ s'.unknownCellCount ≤ s.unknownCellCount := by
      intro s r c hs s' hok
      have h := (ih COp.deleteOp s r c hs).1 s' hok
      exact ⟨h.1, by omega⟩
    have ihOkF : ∀ s r c, TableInv s → ∀ s', cellOpF f COp.finalizeOp s r c = Except.ok s' →
        TableInv s' ∧ s'.unknownCellCount ≤ s.unknownCellCount := by
      intro s r c hs s' hok
      have h := (ih COp.finalizeOp s r c hs).1 s' hok
      exact ⟨h.1, by omega⟩
    have ihNeD : ∀ s r c, TableInv s → s.unknownCellCount < f →
        cellOpF f COp.deleteOp s r c ≠ Except.error Err.fuelExhausted :=
      fun s r c hs hlt => (ih COp.deleteOp s r c hs).2 hlt
    have ihNeF : ∀ s r c, TableInv s → s.unknownCellCount < f →
        cellOpF f COp.finalizeOp s r c ≠ Except.error Err.fuelExhausted :=
      fun s r c hs hlt => (ih COp.finalizeOp s r c hs).2 hlt
    cases op with
    | finalizeOp =>
      by_cases hu : (t.cellAt row column).state = CState.unknown
      · have hmark := markCell_inv t row column CState.final hInv hu (by simp)
        constructor
        · intro t' hok
          simp only [cellOpF] at hok
          rw [if_pos hu] at hok
          split at hok
          · cases hA : colScanRun (cellOpF f COp.deleteOp) (t.cellAt row column).value
                row column (t.markCell row column CState.final) with
            | error e => rw [hA, bindE_error] at hok; cases hok
            | ok t2 =>
              simp only [hA, bindE_ok] at hok
              have h2 := colScanRun_pres _ _ _ _ ihOkD _ _ hmark.1 hA
              split at hok
              · have h3 := rowScanRun_pres _ _ _ _ ihOkD _ _ h2.1 hok
                exact ⟨h3.1, by omega⟩
              · cases hok; exact ⟨h2.1, by omega⟩
          · simp only [bindE_ok] at hok
            split at hok
            · have h3 := rowScanRun_pres _ _ _ _ ihOkD _ _ hmark.1 hok
              exact ⟨h3.1, by omega⟩
            · cases hok; exact ⟨hmark.1, by omega⟩
        · intro hlt hfe
          have ht1 : (t.markCell row column CState.final).unknownCellCount < f := by omega
          simp only [cellOpF] at hfe
          rw [if_pos hu] at hfe
          split at hfe
          · cases hA : colScanRun (cellOpF f COp.deleteOp) (t.cellAt row column).value
                row column (t.markCell row column CState.final) with
            | error e =>
              rw [hA, bindE_error] at hfe
              cases hfe
              exact colScanRun_ne_fuel _ _ _ _ (t.markCell row column CState.final).unknownCellCount
                (fun s r c hs hle => ihNeD s r c hs (by omega)) ihOkD
                _ hmark.1 (le_refl _) hA
            | ok t2 =>
              simp only [hA, bindE_ok] at hfe
              have h2 := colScanRun_pres _ _ _ _ ihOkD _ _ hmark.1 hA
              split at hfe
              · exact rowScanRun_ne_fuel _ _ _ _ t2.unknownCellCount
                  (fun s r c hs hle => ihNeD s r c hs (by omega)) ihOkD
                  _ h2.1 (le_refl _) hfe
              · cases hfe
          · simp only [bindE_ok] at hfe
            split at hfe
            · exact rowScanRun_ne_fuel _ _ _ _
                (t.markCell row column CState.final).unknownCellCount
                (fun s r c hs hle => ihNeD s r c hs (by omega)) ihOkD
                _ hmark.1 (le_refl _) hfe
            · cases hfe
      · constructor
        · intro t' hok
          simp only [cellOpF] at hok
          rw [if_neg hu] at hok
          cases hok
        · intro _ hfe
          simp only [cellOpF] at hfe
          rw [if_neg hu] at hfe
          cases hfe
    | deleteOp =>
      by_cases hu : (t.cellAt row column).state = CState.unknown
      · have hmark := markCell_inv t row column CState.deleted hInv hu (by simp)
        constructor
        · intro t' hok
          simp only [cellOpF] at hok
          rw [if_pos hu] at hok
          split at hok
          · cases hok
          · cases hd : deleteChecks t row column with
            | error e => rw [hd, bindE_error] at hok; cases hok
            | ok d =>
              simp only [hd, bindE_ok] at hok
              have hinvT1 : TableInv
                  ({ t.markCell row column CState.deleted with deletedTrees := d }) := hmark.1
              have h3 := orthoRun_pres _ row column ihOkF _ _ hinvT1 hok
              have hcnt : ({ t.markCell row column CState.deleted with
                  deletedTrees := d } : Table).unknownCellCount
                  = (t.markCell row column CState.deleted).unknownCellCount := rfl
              exact ⟨h3.1, by omega⟩
        · intro hlt hfe
          have ht1 : (t.markCell row column CState.deleted).unknownCellCount < f := by omega
          simp only [cellOpF] at hfe
          rw [if_pos hu] at hfe
          split at hfe
          · cases hfe
          · cases hd : deleteChecks t row column with
            | error e =>
              rw [hd, bindE_error] at hfe
              cases hfe
              rcases deleteChecks_errs t row column _ hd with h | h | h <;> cases h
            | ok d =>
              simp only [hd, bindE_ok] at hfe
              have hinvT1 : TableInv
                  ({ t.markCell row column CState.deleted with deletedTrees := d }) := hmark.1
              have hcnt : ({ t.markCell row column CState.deleted with
                  deletedTrees := d } : Table).unknownCellCount
                  = (t.markCell row column CState.deleted).unknownCellCount := rfl
              exact orthoRun_ne_fuel _ row column
                (t.markCell row column CState.deleted).unknownCellCount
                (fun s r c hs hle => ihNeF s r c hs (by omega)) ihOkF
                _ hinvT1 (by omega) hfe
      · constructor
        · intro t' hok
          simp only [cellOpF] at hok
          rw [if_neg hu] at hok
          cases hok
        · intro _ hfe
          simp only [cellOpF] at hfe
          rw [if_neg hu] at hfe
          cases hfe

/-- No invocation of the pair on an Unknown target ever reports
`MultipleStateChangeException`: the cascade re-checks the cell state
immediately before every nested invocation. -/
theorem cellOpF_ne_msc : ∀ (f : Nat) (op : COp) (t : Table) (row column : Nat),
    (t.cellAt row column).state = CState.unknown →
    cellOpF f op t row column ≠ Except.error Err.multipleStateChange := by
  intro f
  induction f with
  | zero =>
    intro op t row column _ h
    simp [cellOpF] at h
  | succ f ih =>
    intro op t row column hu
    cases op with
    | finalizeOp =>
      intro hmsc
      simp only [cellOpF] at hmsc
      rw [if_pos hu] at hmsc
      split at hmsc
      · cases hA : colScanRun (cellOpF f COp.deleteOp) (t.cellAt row column).value
            row column (t.markCell row column CState.final) with
        | error e =>
          rw [hA, bindE_error] at hmsc
          cases hmsc
          exact colScanRun_ne_msc _ _ _ _ (fun s r c hs => ih COp.deleteOp s r c hs) _ hA
        | ok t2 =>
          simp only [hA, bindE_ok] at hmsc
          split at hmsc
          · exact rowScanRun_ne_msc _ _ _ _ (fun s r c hs => ih COp.deleteOp s r c hs) _ hmsc
          · cases hmsc
      · simp only [bindE_ok] at hmsc
        split at hmsc
        · exact rowScanRun_ne_msc _ _ _ _ (fun s r c hs => ih COp.deleteOp s r c hs) _ hmsc
        · cases hmsc
    | deleteOp =>
      intro hmsc
      simp only [cellOpF] at hmsc
      rw [if_pos hu] at hmsc
      split at hmsc
      · cases hmsc
      · cases hd : deleteChecks t row column with
        | error e =>
          rw [hd, bindE_error] at hmsc
          cases hmsc
          rcases deleteChecks_errs t row column _ hd with h | h | h <;> cases h
        | ok d =>
          simp only [hd, bindE_ok] at hmsc
          exact orthoRun_ne_msc _ row column (fun s r c hs => ih COp.finalizeOp s r c hs) _ hmsc

end Hitori

namespace Hitori

theorem getD_range (n i d : Nat) (h : i < n) : (List.range n).getD i d = i := by
  rw [List.getD_eq_getElem?_getD, List.getElem?_range h]; rfl

theorem sum_of_all_eq (l : List Nat) (n : Nat) (h : ∀ x ∈ l, x = n) :
    l.sum = l.length * n := by
  induction l with
  | nil => simp
  | cons x xs ih =>
    have h1 := h x (List.mem_cons_self x xs)
    have h2 := ih (fun y hy => h y (List.mem_cons_of_mem x hy))
    simp only [List.sum_cons, List.length_cons]
    subst h1
    rw [h2]
    ring

/-- A successfully constructed `Table` of machine-representable size satisfies
the consistency invariant. -/
theorem mkTable_inv (initValues : List (List Nat)) (t : Table)
    (hlen : initValues.length ≤ 65535) (h : mkTable initValues = Except.ok t) :
    TableInv t := by
  unfold mkTable at h
  dsimp only at h
  split at h
  · split at h
    · rename_i hsh0 hvv0
      have hsh : ∀ row ∈ initValues, row.length = initValues.length := by
        intro row hm
        have := List.all_eq_true.mp hsh0 row hm
        simpa using this
      have hvv : ∀ row ∈ initValues, ∀ v ∈ row, 1 ≤ v ∧ v ≤ initValues.length := by
        intro row hm v hv
        have h1 := List.all_eq_true.mp hvv0 row hm
        have h2 := List.all_eq_true.mp h1 v hv
        simp only [Bool.and_eq_true, decide_eq_true_eq] at h2
        exact h2
      cases h
      refine ⟨hlen, ?_, ?_, ?_, ?_, ?_, ?_, ?_, ?_, ?_, ?_⟩
      · simp
      · intro row hm
        simp only [List.mem_map] at hm
        obtain ⟨row0, hm0, heq⟩ := hm
        subst heq
        simp [hsh row0 hm0]
      · simp
      · intro l hm
        simp only [List.mem_map] at hm
        obtain ⟨row0, _, heq⟩ := hm
        subst heq
        simp
      · simp
      · intro l hm
        simp only [List.mem_map] at hm
        obtain ⟨c, _, heq⟩ := hm
        subst heq
        simp
      · intro row hm cell hc
        simp only [List.mem_map] at hm
        obtain ⟨row0, hm0, heq⟩ := hm
        subst heq
        simp only [List.mem_map] at hc
        obtain ⟨v, hv0, heq2⟩ := hc
        subst heq2
        exact hvv row0 hm0 v hv0
      · -- row counts
        intro r hr v hv
        have hr' : r < initValues.length := by simpa using hr
        have hv' : v < initValues.length + 1 := by simpa using hv
        rw [Table.rowCount, rowUnknownCount]
        dsimp only
        rw [getD_map_of_lt _ initValues r _ [] hr']
        rw [getD_map_of_lt _ _ v _ 0 (by simpa using hv')]
        rw [getD_range _ _ _ hv']
        rw [getD_map_of_lt _ initValues r _ [] hr']
        rw [List.countP_map, List.count_eq_countP]
        apply List.countP_congr
        intro a _
        simp
      · -- column counts
        intro c hc v hv
        have hc' : c < initValues.length := by simpa using hc
        have hv' : v < initValues.length + 1 := by simpa using hv
        rw [Table.colCount, colUnknownCount]
        dsimp only
        rw [getD_map_of_lt _ _ c _ 0 (by simpa using hc')]
        rw [getD_range _ _ _ hc']
        rw [getD_map_of_lt _ _ v _ 0 (by simpa using hv')]
        rw [getD_range _ _ _ hv']
        rw [List.countP_map]
        rw [List.count_eq_countP, List.countP_map]
        apply List.countP_congr
        intro row0 hm0
        have hlen0 : c < row0.length := by rw [hsh row0 hm0]; exact hc'
        have hgd : ((row0.map (fun v => (⟨v, CState.unknown⟩ : Cell))).getD c ⟨0, CState.deleted⟩)
            = ⟨row0.getD c 0, CState.unknown⟩ := getD_map_of_lt _ _ _ _ 0 hlen0
        simp only [Function.comp_apply]
        rw [hgd]
        simp
      · -- total unknown count
        rw [totalUnknown]
        dsimp only
        rw [List.map_map]
        have hall : ∀ x ∈ initValues.map ((fun row => List.countP
              (fun cell => cell.state == CState.unknown) row) ∘
              (fun row => List.map (fun v => (⟨v, CState.unknown⟩ : Cell)) row)),
            x = initValues.length := by
          intro x hx
          simp only [List.mem_map, Function.comp] at hx
          obtain ⟨row0, hm0, hxeq⟩ := hx
          subst hxeq
          rw [← hsh row0 hm0, List.countP_map, List.countP_eq_length]
          intro a _
          simp [Function.comp]
        have hs := sum_of_all_eq _ initValues.length hall
        rw [hs]
        simp

    · cases h
  · cases h

/-- All boards reachable through the engine API are consistent. -/
theorem reachable_inv : ∀ t, Reachable t → TableInv t := by
  intro t h
  induction h with
  | base iv t hlen hmk => exact mkTable_inv iv t hlen hmk
  | uniq t _ ih => exact (finalizeUniqueCells_inv t ih).1
  | fin t t' r c _ hop ih =>
    exact ((cellOpF_pres (t.unknownCellCount + 1) COp.finalizeOp t r c ih).1 t' hop).1
  | del t t' r c _ hop ih =>
    exact ((cellOpF_pres (t.unknownCellCount + 1) COp.deleteOp t r c ih).1 t' hop).1

theorem finalizeCell_ok (t : Table) (r c : Nat) (hInv : TableInv t) (t' : Table)
    (h : t.finalizeCell r c = Except.ok t') :
    TableInv t' ∧ t'.unknownCellCount < t.unknownCellCount :=
  (cellOpF_pres (t.unknownCellCount + 1) COp.finalizeOp t r c hInv).1 t' h

theorem deleteCell_ok (t : Table) (r c : Nat) (hInv : TableInv t) (t' : Table)
    (h : t.deleteCell r c = Except.ok t') :
    TableInv t' ∧ t'.unknownCellCount < t.unknownCellCount :=
  (cellOpF_pres (t.unknownCellCount + 1) COp.deleteOp t r c hInv).1 t' h

theorem finalizeCell_ne_fuel (t : Table) (r c : Nat) (hInv : TableInv t) :
    t.finalizeCell r c ≠ Except.error Err.fuelExhausted :=
  (cellOpF_pres (t.unknownCellCount + 1) COp.finalizeOp t r c hInv).2 (by omega)

theorem deleteCell_ne_fuel (t : Table) (r c : Nat) (hInv : TableInv t) :
    t.deleteCell r c ≠ Except.error Err.fuelExhausted :=
  (cellOpF_pres (t.unknownCellCount + 1) COp.deleteOp t r c hInv).2 (by omega)

theorem finalizeCell_ne_msc (t : Table) (r c : Nat)
    (hu : (t.cellAt r c).state = CState.unknown) :
    t.finalizeCell r c ≠ Except.error Err.multipleStateChange :=
  cellOpF_ne_msc (t.unknownCellCount + 1) COp.finalizeOp t r c hu

theorem deleteCell_ne_msc (t : Table) (r c : Nat)
    (hu : (t.cellAt r c).state = CState.unknown) :
    t.deleteCell r c ≠ Except.error Err.multipleStateChange :=
  cellOpF_ne_msc (t.unknownCellCount + 1) COp.deleteOp t r c hu

end Hitori

namespace Hitori

/-- With more fuel than Unknown cells, the embedded `solve` recursion never
exhausts its fuel: every level strictly decreases `unknownCellCount`. -/
theorem solveF_ne_fuel : ∀ (f : Nat) (t : Table), TableInv t → t.unknownCellCount < f →
    solveF f t ≠ Except.error Err.fuelExhausted := by
  intro f
  induction f with
  | zero => intro t _ hlt; omega
  | succ f ih =>
    intro t hInv hlt hfe
    have hu := finalizeUniqueCells_inv t hInv
    simp only [solveF] at hfe
    split at hfe
    · cases hfe
    · cases hA : t.finalizeUniqueCells.finalizeCell
          t.finalizeUniqueCells.getFinalizeCandidatePos.1
          t.finalizeUniqueCells.getFinalizeCandidatePos.2 with
      | ok tc =>
        simp only [hA, bindE_ok] at hfe
        have hokc := finalizeCell_ok _ _ _ hu.1 tc hA
        have hlt2 : tc.unknownCellCount < f := by omega
        cases hS : solveF f tc with
        | ok r =>
          simp only [hS] at hfe
          cases hfe
        | error e =>
          simp only [hS] at hfe
          cases e with
          | noSolution s =>
            cases hB : t.finalizeUniqueCells.deleteCell
                t.finalizeUniqueCells.getFinalizeCandidatePos.1
                t.finalizeUniqueCells.getFinalizeCandidatePos.2 with
            | error e2 =>
              simp only [hB, bindE_error] at hfe
              cases hfe
              exact deleteCell_ne_fuel _ _ _ hu.1 hB
            | ok t1 =>
              simp only [hB, bindE_ok] at hfe
              have hok1 := deleteCell_ok _ _ _ hu.1 t1 hB
              exact ih t1 hok1.1 (by omega) hfe
          | fuelExhausted => exact ih tc hokc.1 hlt2 hS
          | invalidShape => cases hfe
          | invalidValue => cases hfe
          | multipleStateChange => cases hfe
          | rangeError => cases hfe
          | notRoot => cases hfe
      | error e =>
        simp only [hA, bindE_error] at hfe
        cases e with
        | noSolution s =>
          cases hB : t.finalizeUniqueCells.deleteCell
              t.finalizeUniqueCells.getFinalizeCandidatePos.1
              t.finalizeUniqueCells.getFinalizeCandidatePos.2 with
          | error e2 =>
            simp only [hB, bindE_error] at hfe
            cases hfe
            exact deleteCell_ne_fuel _ _ _ hu.1 hB
          | ok t1 =>
            simp only [hB, bindE_ok] at hfe
            have hok1 := deleteCell_ok _ _ _ hu.1 t1 hB
            exact ih t1 hok1.1 (by omega) hfe
        | fuelExhausted => exact finalizeCell_ne_fuel _ _ _ hu.1 hA
        | invalidShape => cases hfe
        | invalidValue => cases hfe
        | multipleStateChange => cases hfe
        | rangeError => cases hfe
        | notRoot => cases hfe

/-- The embedded `solve` never exhausts its fuel on a consistent board. -/
theorem solve_ne_fuel (t : Table) (hInv : TableInv t) :
    solve t ≠ Except.error Err.fuelExhausted :=
  solveF_ne_fuel (t.unknownCellCount + 1) t hInv (by omega)

end Hitori

namespace Hitori

theorem scanMax_ge (t : Table) : ∀ (l : List (Nat × Nat × Nat)) (a : Nat), a ≤ scanMax t l a := by
  intro l
  induction l with
  | nil => intro a; exact le_refl a
  | cons x xs ih =>
    intro a
    unfold scanMax
    rw [List.foldl_cons]
    by_cases hu : unknownCand t x = true
    · rw [if_pos hu]
      calc a ≤ Nat.max a (candScore t x.1 x.2.1 x.2.2) := Nat.le_max_left _ _
      _ ≤ scanMax t xs (Nat.max a (candScore t x.1 x.2.1 x.2.2)) := ih _
    · rw [if_neg hu]
      exact ih a

theorem scanMax_ge_elem (t : Table) : ∀ (l : List (Nat × Nat × Nat)) (a : Nat)
    (x : Nat × Nat × Nat), x ∈ l → unknownCand t x = true →
    candScore t x.1 x.2.1 x.2.2 ≤ scanMax t l a := by
  intro l
  induction l with
  | nil => intro a x hx; cases hx
  | cons y ys ih =>
    intro a x hx hux
    unfold scanMax
    rw [List.foldl_cons]
    rcases List.mem_cons.mp hx with h | h
    · subst h
      rw [if_pos hux]
      calc candScore t x.1 x.2.1 x.2.2 ≤ Nat.max a (candScore t x.1 x.2.1 x.2.2) :=
            Nat.le_max_right _ _
      _ ≤ scanMax t ys (Nat.max a (candScore t x.1 x.2.1 x.2.2)) := scanMax_ge t ys _
    · by_cases huy : unknownCand t y = true
      · rw [if_pos huy]; exact ih _ x h hux
      · rw [if_neg huy]; exact ih _ x h hux

/-- Full characterization of the `getFinalizeCandidatePos` fold: the running
maximum computes `scanMax`; if no Unknown candidate beats the initial
accumulator the accumulator survives unchanged; otherwise the fold returns the
first Unknown candidate achieving the maximum. -/
theorem candFold_char (t : Table) : ∀ (l : List (Nat × Nat × Nat)) (acc : Nat × Nat × Nat),
    (l.foldl (candStep t) acc).2.2 = scanMax t l acc.2.2
    ∧ (scanMax t l acc.2.2 = acc.2.2 → l.foldl (candStep t) acc = acc)
    ∧ (acc.2.2 < scanMax t l acc.2.2 →
      ∃ x0, (l.filter (unknownCand t)).find?
            (fun x => decide (scanMax t l acc.2.2 ≤ candScore t x.1 x.2.1 x.2.2)) = some x0
        ∧ l.foldl (candStep t) acc = (x0.1, x0.2.1, scanMax t l acc.2.2)
        ∧ candScore t x0.1 x0.2.1 x0.2.2 = scanMax t l acc.2.2) := by
  intro l
  induction l with
  | nil =>
    intro acc
    refine ⟨rfl, fun _ => rfl, fun h => ?_⟩
    exact absurd h (by unfold scanMax; simp)
  | cons x xs ih =>
    intro acc
    by_cases hu : unknownCand t x = true
    · by_cases hlt : acc.2.2 < candScore t x.1 x.2.1 x.2.2
      · -- the candidate improves the accumulator
        have hstep : candStep t acc x = (x.1, x.2.1, candScore t x.1 x.2.1 x.2.2) := by
          unfold candStep
          rw [if_pos hu, if_pos hlt]
        have hmax : Nat.max acc.2.2 (candScore t x.1 x.2.1 x.2.2)
            = candScore t x.1 x.2.1 x.2.2 := Nat.max_eq_right (le_of_lt hlt)
        have hsm : scanMax t (x :: xs) acc.2.2
            = scanMax t xs (candScore t x.1 x.2.1 x.2.2) := by
          unfold scanMax
          rw [List.foldl_cons, if_pos hu, hmax]
        have hge : candScore t x.1 x.2.1 x.2.2
            ≤ scanMax t xs (candScore t x.1 x.2.1 x.2.2) := scanMax_ge t xs _
        have hfold : (x :: xs).foldl (candStep t) acc
            = xs.foldl (candStep t) (x.1, x.2.1, candScore t x.1 x.2.1 x.2.2) := by
          rw [List.foldl_cons, hstep]
        have ih2 := ih (x.1, x.2.1, candScore t x.1 x.2.1 x.2.2)
        refine ⟨?_, ?_, ?_⟩
        · rw [hfold, hsm]
          exact ih2.1
        · intro h
          rw [hsm] at h
          omega
        · intro _
          rw [hsm, hfold]
          rcases Nat.lt_or_ge (candScore t x.1 x.2.1 x.2.2)
              (scanMax t xs (candScore t x.1 x.2.1 x.2.2)) with hcase | hcase
          · obtain ⟨x0, hfind, hfeq, hscore⟩ := ih2.2.2 hcase
            refine ⟨x0, ?_, hfeq, hscore⟩
            rw [List.filter_cons_of_pos hu, List.find?_cons_of_neg, hfind]
            simp only [decide_eq_true_eq]
            omega
          · have heq : scanMax t xs (candScore t x.1 x.2.1 x.2.2)
                = candScore t x.1 x.2.1 x.2.2 := by omega
            refine ⟨x, ?_, ?_, by rw [heq]⟩
            · rw [List.filter_cons_of_pos hu, List.find?_cons_of_pos]
              simp only [decide_eq_true_eq]
              omega
            · rw [ih2.2.1 (by rw [heq]), heq]
      · -- the candidate does not improve the accumulator
        have hstep : candStep t acc x = acc := by
          unfold candStep
          rw [if_pos hu, if_neg hlt]
        have hmax : Nat.max acc.2.2 (candScore t x.1 x.2.1 x.2.2) = acc.2.2 :=
          Nat.max_eq_left (by omega)
        have hsm : scanMax t (x :: xs) acc.2.2 = scanMax t xs acc.2.2 := by
          unfold scanMax
          rw [List.foldl_cons, if_pos hu, hmax]
        have hfold : (x :: xs).foldl (candStep t) acc = xs.foldl (candStep t) acc := by
          rw [List.foldl_cons, hstep]
        refine ⟨?_, ?_, ?_⟩
        · rw [hfold, hsm]; exact (ih acc).1
        · intro h
          rw [hsm] at h
          rw [hfold]
          exact (ih acc).2.1 h
        · intro h
          rw [hsm] at h ⊢
          rw [hfold]
          obtain ⟨x0, hfind, hfeq, hscore⟩ := (ih acc).2.2 h
          refine ⟨x0, ?_, hfeq, hscore⟩
          rw [List.filter_cons_of_pos hu, List.find?_cons_of_neg, hfind]
          simp only [decide_eq_true_eq]
          omega
    · -- not an Unknown candidate: the step is the identity
      have hstep : candStep t acc x = acc := by
        unfold candStep
        rw [if_neg hu]
      have hsm : scanMax t (x :: xs) acc.2.2 = scanMax t xs acc.2.2 := by
        unfold scanMax
        rw [List.foldl_cons, if_neg hu]
      have hfold : (x :: xs).foldl (candStep t) acc = xs.foldl (candStep t) acc := by
        rw [List.foldl_cons, hstep]
      refine ⟨?_, ?_, ?_⟩
      · rw [hfold, hsm]; exact (ih acc).1
      · intro h
        rw [hsm] at h
        rw [hfold]
        exact (ih acc).2.1 h
      · intro h
        rw [hsm] at h ⊢
        rw [hfold]
        obtain ⟨x0, hfind, hfeq, hscore⟩ := (ih acc).2.2 h
        refine ⟨x0, ?_, hfeq, hscore⟩
        rw [List.filter_cons_of_neg hu]
        exact hfind

end Hitori

namespace Hitori

theorem sum_pos_exists (l : List Nat) (h : 0 < l.sum) :
    ∃ i, i < l.length ∧ 0 < l.getD i 0 := by
  induction l with
  | nil => simp at h
  | cons x xs ih =>
    by_cases hx : 0 < x
    · exact ⟨0, by simp, hx⟩
    · have hxs : 0 < xs.sum := by simp at h; omega
      obtain ⟨i, hi, hpos⟩ := ih hxs
      exact ⟨i + 1, by simpa using hi, by simpa using hpos⟩

/-- A consistent board with a positive Unknown count contains an Unknown cell
inside the grid. -/
theorem exists_unknown (t : Table) (hInv : TableInv t) (hpos : 0 < t.unknownCellCount) :
    ∃ r c, r < t.size ∧ c < t.size ∧ (t.cellAt r c).state = CState.unknown := by
  obtain ⟨hsz, hcl, hrowlen, _, _, _, _, hval, _, _, hcount⟩ := hInv
  rw [hcount, totalUnknown] at hpos
  obtain ⟨r, hr, hrpos⟩ := sum_pos_exists _ hpos
  rw [List.length_map] at hr
  rw [getD_map_of_lt _ _ _ _ [] hr] at hrpos
  rw [List.countP_pos_iff] at hrpos
  obtain ⟨cell, hcmem, hcp⟩ := hrpos
  obtain ⟨c, hc, hceq⟩ := List.mem_iff_getElem.mp hcmem
  refine ⟨r, c, hcl ▸ hr, ?_, ?_⟩
  · rw [← hrowlen _ (getD_mem_of_lt _ _ _ hr)]
    exact hc
  · have : t.cellAt r c = cell := by
      rw [Table.cellAt, List.getD_eq_getElem?_getD, List.getElem?_eq_getElem hc]
      simpa using hceq
    rw [this]
    simpa using hcp

theorem mem_candList (t : Table) (x : Nat × Nat × Nat) :
    x ∈ candList t ↔ x.1 < t.size ∧ x.2.1 < t.size ∧ 1 ≤ x.2.2 ∧ x.2.2 < t.size + 1 := by
  obtain ⟨r, c, v⟩ := x
  unfold candList
  simp only [List.mem_flatMap, List.mem_range, List.mem_map, List.mem_range'_1,
    Prod.mk.injEq]
  constructor
  · rintro ⟨r', hr', c', hc', v', ⟨hv1', hv2'⟩, h1, h2, h3⟩
    subst h1; subst h2; subst h3
    exact ⟨hr', hc', hv1', by omega⟩
  · rintro ⟨hr, hc, hv1, hv2⟩
    exact ⟨r, hr, c, hc, v, ⟨hv1, by omega⟩, rfl, rfl, rfl⟩

/-- Under the count invariant, the score of an Unknown cell at its own value
is at least 1: the cell itself is counted in both its row and its column. -/
theorem candScore_own (t : Table) (r c : Nat) (hInv : TableInv t)
    (hu : (t.cellAt r c).state = CState.unknown) :
    1 ≤ candScore t r c (t.cellAt r c).value := by
  obtain ⟨hrlt, hclt⟩ := unknown_in_range t r c hu
  obtain ⟨hsz, hcl, hrowlen, hrcl, hrclen, hccl, hcclen, hval, hrc, hcc, hcount⟩ := hInv
  have hr : r < t.size := hcl ▸ hrlt
  have hrowmem : t.cells.getD r [] ∈ t.cells := getD_mem_of_lt _ _ _ hrlt
  have hrowsz : (t.cells.getD r []).length = t.size := hrowlen _ hrowmem
  have hc : c < t.size := hrowsz ▸ hclt
  have hcellmem : (t.cells.getD r []).getD c ⟨0, CState.deleted⟩ ∈ t.cells.getD r [] :=
    getD_mem_of_lt _ _ _ hclt
  have hcellAt : t.cellAt r c = (t.cells.getD r []).getD c ⟨0, CState.deleted⟩ := rfl
  have hv : 1 ≤ (t.cellAt r c).value ∧ (t.cellAt r c).value ≤ t.size := by
    rw [hcellAt]; exact hval _ hrowmem _ hcellmem
  have hpold : (((t.cells.getD r []).getD c ⟨0, CState.deleted⟩).value == (t.cellAt r c).value
      && ((t.cells.getD r []).getD c ⟨0, CState.deleted⟩).state == CState.unknown) = true := by
    rw [← hcellAt]; simp [hu]
  have hposrow : 0 < rowUnknownCount t r (t.cellAt r c).value := by
    rw [rowUnknownCount, List.countP_pos_iff]
    exact ⟨_, hcellmem, hpold⟩
  have hlerow : rowUnknownCount t r (t.cellAt r c).value ≤ t.size := by
    rw [rowUnknownCount]
    calc (t.cells.getD r []).countP _ ≤ (t.cells.getD r []).length :=
          List.countP_le_length _
    _ = t.size := hrowsz
  have hposcol : 0 < colUnknownCount t c (t.cellAt r c).value := by
    rw [colUnknownCount, List.countP_pos_iff]
    exact ⟨_, hrowmem, hpold⟩
  have hlecol : colUnknownCount t c (t.cellAt r c).value ≤ t.size := by
    rw [colUnknownCount]
    calc t.cells.countP _ ≤ t.cells.length := List.countP_le_length _
    _ = t.size := hcl
  have h1 : t.rowCount r (t.cellAt r c).value = rowUnknownCount t r (t.cellAt r c).value :=
    hrc r hr _ (by omega)
  have h2 : t.colCount c (t.cellAt r c).value = colUnknownCount t c (t.cellAt r c).value :=
    hcc c hc _ (by omega)
  unfold candScore
  rw [h1, h2]
  omega

theorem unknownCand_iff (t : Table) (x : Nat × Nat × Nat) :
    unknownCand t x = true ↔ (t.cellAt x.1 x.2.1).state = CState.unknown := by
  unfold unknownCand
  simp

/-- Under the invariant, when Unknown cells remain the heuristic's maximum
score is positive. -/
theorem maxCandScore_pos (t : Table) (hInv : TableInv t) (hpos : 0 < t.unknownCellCount) :
    0 < maxCandScore t := by
  obtain ⟨r, c, hr, hc, hu⟩ := exists_unknown t hInv hpos
  have h1 := candScore_own t r c hInv hu
  have hvr : 1 ≤ (t.cellAt r c).value ∧ (t.cellAt r c).value ≤ t.size := by
    obtain ⟨hrlt, hclt⟩ := unknown_in_range t r c hu
    obtain ⟨_, hcl, hrowlen, _, _, _, _, hval, _, _, _⟩ := hInv
    have hrowmem : t.cells.getD r [] ∈ t.cells := getD_mem_of_lt _ _ _ hrlt
    exact hval _ hrowmem _ (getD_mem_of_lt _ _ _ hclt)
  have hmem : ((r, c, (t.cellAt r c).value) : Nat × Nat × Nat) ∈ candList t := by
    rw [mem_candList]
    dsimp only
    exact ⟨hr, hc, hvr.1, by omega⟩
  have h2 := scanMax_ge_elem t (candList t) 0 (r, c, (t.cellAt r c).value) hmem
    (by rw [unknownCand_iff]; exact hu)
  dsimp only at h2
  unfold maxCandScore
  omega

/-- The position returned by the branching heuristic when the maximum score is
positive: the first Unknown candidate achieving the maximum score. -/
theorem getFinalizeCandidatePos_char (t : Table) (hpos : 0 < maxCandScore t) :
    ∃ x0, ((candList t).filter (unknownCand t)).find?
          (fun x => decide (maxCandScore t ≤ candScore t x.1 x.2.1 x.2.2)) = some x0
      ∧ t.getFinalizeCandidatePos = (x0.1, x0.2.1)
      ∧ candScore t x0.1 x0.2.1 x0.2.2 = maxCandScore t := by
  have hchar := (candFold_char t (candList t) (0, 0, 0)).2.2 hpos
  obtain ⟨x0, hfind, hfeq, hscore⟩ := hchar
  refine ⟨x0, hfind, ?_, hscore⟩
  rw [Table.getFinalizeCandidatePos]
  rw [hfeq]

/-- The heuristic's position is an in-grid Unknown cell whenever the board is
consistent and has an Unknown cell. -/
theorem candidate_unknown (t : Table) (hInv : TableInv t) (hpos : 0 < t.unknownCellCount) :
    t.getFinalizeCandidatePos.1 < t.size ∧ t.getFinalizeCandidatePos.2 < t.size ∧
    (t.cellAt t.getFinalizeCandidatePos.1 t.getFinalizeCandidatePos.2).state
      = CState.unknown := by
  obtain ⟨x0, hfind, hfeq, _⟩ :=
    getFinalizeCandidatePos_char t (maxCandScore_pos t hInv hpos)
  have hx0mem := List.mem_of_find?_eq_some hfind
  rw [List.mem_filter] at hx0mem
  have hrange := (mem_candList t x0).mp hx0mem.1
  have hup := (unknownCand_iff t x0).mp hx0mem.2
  rw [hfeq]
  exact ⟨hrange.1, hrange.2.1, hup⟩

end Hitori

namespace Hitori

theorem uniqueStep_of_neg (t : Table) (p : Nat × Nat) (h : ¬uniqueCond t p) :
    uniqueStep t p = t := by
  unfold uniqueStep
  rw [if_neg h]

theorem uniqueStep_size (t : Table) (p : Nat × Nat) : (uniqueStep t p).size = t.size := by
  unfold uniqueStep
  split <;> rfl

theorem uniqueStep_cells_pos (t : Table) (p : Nat × Nat) (h : uniqueCond t p) :
    (uniqueStep t p).cells = t.cells.set p.1 ((t.cells.getD p.1 []).set p.2
      ⟨(t.cellAt p.1 p.2).value, CState.final⟩) := by
  unfold uniqueStep
  rw [if_pos h]
  rfl

theorem uniqueStep_rowCounts_pos (t : Table) (p : Nat × Nat) (h : uniqueCond t p) :
    (uniqueStep t p).rowCounts = t.rowCounts.set p.1
      ((t.rowCounts.getD p.1 []).set (t.cellAt p.1 p.2).value 0) := by
  unfold uniqueStep
  rw [if_pos h]
  rfl

theorem uniqueStep_columnCounts_pos (t : Table) (p : Nat × Nat) (h : uniqueCond t p) :
    (uniqueStep t p).columnCounts = t.columnCounts.set p.2
      ((t.columnCounts.getD p.2 []).set (t.cellAt p.1 p.2).value 0) := by
  unfold uniqueStep
  rw [if_pos h]
  rfl

theorem uniqueStep_cellAt (t : Table) (p : Nat × Nat) (r c : Nat) :
    (uniqueStep t p).cellAt r c = t.cellAt r c
      ∨ ((uniqueStep t p).cellAt r c).state = CState.final := by
  by_cases hcond : uniqueCond t p
  · obtain ⟨hrlt, hclt⟩ := unknown_in_range t p.1 p.2 hcond.1
    unfold Table.cellAt
    rw [uniqueStep_cells_pos t p hcond]
    by_cases hr : p.1 = r
    · subst hr
      rw [getD_set_self _ _ _ _ hrlt]
      by_cases hc : p.2 = c
      · subst hc
        rw [getD_set_self _ _ _ _ hclt]
        right
        rfl
      · rw [getD_set_ne _ _ _ _ _ hc]
        left
        rfl
    · rw [getD_set_ne _ _ _ _ _ hr]
      left
      rfl
  · rw [uniqueStep_of_neg t p hcond]
    left
    rfl

theorem uniqueStep_rowCount (t : Table) (p : Nat × Nat) (r w : Nat) :
    (uniqueStep t p).rowCount r w = t.rowCount r w
      ∨ (uniqueStep t p).rowCount r w = 0 := by
  by_cases hcond : uniqueCond t p
  · unfold Table.rowCount
    rw [uniqueStep_rowCounts_pos t p hcond]
    by_cases hr : p.1 = r
    · subst hr
      by_cases hlen : p.1 < t.rowCounts.length
      · rw [getD_set_self _ _ _ _ hlen]
        by_cases hw : (t.cellAt p.1 p.2).value = w
        · subst hw
          by_cases hvlen : (t.cellAt p.1 p.2).value < (t.rowCounts.getD p.1 []).length
          · rw [getD_set_self _ _ _ _ hvlen]
            right
            rfl
          · rw [set_of_length_le _ _ _ (by omega)]
            left
            rfl
        · rw [getD_set_ne _ _ _ _ _ hw]
          left
          rfl
      · rw [set_of_length_le _ _ _ (by omega)]
        left
        rfl
    · rw [getD_set_ne _ _ _ _ _ hr]
      left
      rfl
  · rw [uniqueStep_of_neg t p hcond]
    left
    rfl

theorem uniqueStep_colCount (t : Table) (p : Nat × Nat) (c w : Nat) :
    (uniqueStep t p).colCount c w = t.colCount c w
      ∨ (uniqueStep t p).colCount c w = 0 := by
  by_cases hcond : uniqueCond t p
  · unfold Table.colCount
    rw [uniqueStep_columnCounts_pos t p hcond]
    by_cases hc : p.2 = c
    · subst hc
      by_cases hlen : p.2 < t.columnCounts.length
      · rw [getD_set_self _ _ _ _ hlen]
        by_cases hw : (t.cellAt p.1 p.2).value = w
        · subst hw
          by_cases hvlen : (t.cellAt p.1 p.2).value < (t.columnCounts.getD p.2 []).length
          · rw [getD_set_self _ _ _ _ hvlen]
            right
            rfl
          · rw [set_of_length_le _ _ _ (by omega)]
            left
            rfl
        · rw [getD_set_ne _ _ _ _ _ hw]
          left
          rfl
      · rw [set_of_length_le _ _ _ (by omega)]
        left
        rfl
    · rw [getD_set_ne _ _ _ _ _ hc]
      left
      rfl
  · rw [uniqueStep_of_neg t p hcond]
    left
    rfl

theorem uniqueStep_value (t : Table) (p : Nat × Nat) (r c : Nat) :
    ((uniqueStep t p).cellAt r c).value = (t.cellAt r c).value := by
  by_cases hcond : uniqueCond t p
  · obtain ⟨hrlt, hclt⟩ := unknown_in_range t p.1 p.2 hcond.1
    unfold Table.cellAt
    rw [uniqueStep_cells_pos t p hcond]
    by_cases hr : p.1 = r
    · subst hr
      rw [getD_set_self _ _ _ _ hrlt]
      by_cases hc : p.2 = c
      · subst hc
        rw [getD_set_self _ _ _ _ hclt]
        rfl
      · rw [getD_set_ne _ _ _ _ _ hc]
    · rw [getD_set_ne _ _ _ _ _ hr]
  · rw [uniqueStep_of_neg t p hcond]

/-- A position whose guard fails keeps failing after any further step: the
step only turns states Unknown to Final and counts one to zero. -/
theorem uniqueCond_preserved_neg (t : Table) (p q : Nat × Nat)
    (h : ¬uniqueCond t q) : ¬uniqueCond (uniqueStep t p) q := by
  intro hcond
  obtain ⟨hu, hrw, hcw⟩ := hcond
  apply h
  rcases uniqueStep_cellAt t p q.1 q.2 with hcell | hcell
  · rw [hcell] at hu
    rw [uniqueStep_value] at hrw hcw
    rcases uniqueStep_rowCount t p q.1 (t.cellAt q.1 q.2).value with hr | hr
    · rcases uniqueStep_colCount t p q.2 (t.cellAt q.1 q.2).value with hc | hc
      · rw [hr] at hrw
        rw [hc] at hcw
        exact ⟨hu, hrw, hcw⟩
      · rw [hc] at hcw
        cases hcw
    · rw [hr] at hrw
      cases hrw
  · rw [hcell] at hu
    cases hu

/-- After visiting a position, its guard fails. -/
theorem uniqueCond_after_self (t : Table) (p : Nat × Nat) :
    ¬uniqueCond (uniqueStep t p) p := by
  by_cases hcond : uniqueCond t p
  · intro hcond2
    obtain ⟨hrlt, hclt⟩ := unknown_in_range t p.1 p.2 hcond.1
    have hcell : ((uniqueStep t p).cellAt p.1 p.2).state = CState.final := by
      unfold Table.cellAt
      rw [uniqueStep_cells_pos t p hcond]
      rw [getD_set_self _ _ _ _ hrlt, getD_set_self _ _ _ _ hclt]
    rw [hcond2.1] at hcell
    cases hcell
  · rw [uniqueStep_of_neg t p hcond]
    exact hcond

theorem foldl_uniqueStep_preserved_neg (l : List (Nat × Nat)) (t : Table) (q : Nat × Nat)
    (h : ¬uniqueCond t q) : ¬uniqueCond (l.foldl uniqueStep t) q := by
  induction l generalizing t with
  | nil => exact h
  | cons p ps ih =>
    rw [List.foldl_cons]
    exact ih (uniqueStep t p) (uniqueCond_preserved_neg t p q h)

theorem foldl_uniqueStep_establishes (l : List (Nat × Nat)) (t : Table) :
    ∀ p ∈ l, ¬uniqueCond (l.foldl uniqueStep t) p := by
  induction l generalizing t with
  | nil => intro p hp; cases hp
  | cons x xs ih =>
    intro p hp
    rw [List.foldl_cons]
    rcases List.mem_cons.mp hp with h | h
    · subst h
      exact foldl_uniqueStep_preserved_neg xs (uniqueStep t p) p (uniqueCond_after_self t p)
    · exact ih (uniqueStep t x) p h

theorem foldl_uniqueStep_id (l : List (Nat × Nat)) (t : Table)
    (h : ∀ p ∈ l, ¬uniqueCond t p) : l.foldl uniqueStep t = t := by
  induction l with
  | nil => rfl
  | cons p ps ih =>
    rw [List.foldl_cons, uniqueStep_of_neg t p (h p (List.mem_cons_self p ps))]
    exact ih (fun q hq => h q (List.mem_cons_of_mem p hq))

theorem foldl_uniqueStep_size (l : List (Nat × Nat)) (t : Table) :
    (l.foldl uniqueStep t).size = t.size := by
  induction l generalizing t with
  | nil => rfl
  | cons p ps ih =>
    rw [List.foldl_cons, ih, uniqueStep_size]

end Hitori

namespace Hitori

/-- C8: `finalizeUniqueCells` is idempotent: a second run immediately after a
first run, with no intervening mutation, yields the identical board — no cell
state changes, no row or column count changes, and `unknownCellCount` does not
decrease further. -/
theorem c8_finalizeUniqueCells_idempotent (t : Table) :
    t.finalizeUniqueCells.finalizeUniqueCells = t.finalizeUniqueCells := by
  unfold Table.finalizeUniqueCells
  rw [foldl_uniqueStep_size]
  exact foldl_uniqueStep_id _ _ (foldl_uniqueStep_establishes (posList t.size) t)

/-- C9 counterexample: constructing a `Table` from the 1×1 matrix `[[5]]` does
not succeed — the constructor rejects the value 5 > size = 1 with
`InvalidValueException` — so the claimed solve run never happens. -/
theorem c9_counterexample :
    mkTable [[5]] = Except.error Err.invalidValue
    ∧ (mkTable [[5]]).isOk = false
    ∧ solveInit [[5]] = Except.error Err.invalidValue := by
  refine ⟨by decide, by decide, by decide⟩

/-- C9 amended: constructing a `Table` from the 1×1 matrix `[[1]]` (the value
must lie in `[1, N]`) and running `solve` on it succeeds immediately,
returning a solved board whose single cell is Final with value 1 and with
zero Deleted cells. -/
theorem c9_one_by_one_solves :
    solveInit [[1]] = Except.ok tableOneSolved
    ∧ tableOneSolved.unknownCellCount = 0
    ∧ tableOneSolved.cellAt 0 0 = ⟨1, CState.final⟩
    ∧ deletedCount tableOneSolved = 0 := by
  refine ⟨by decide, by decide, by decide, by decide⟩

/-- C4 counterexample: `deleteCell` at the Unknown cell `(0,0)` of `tableC4`
fails with "deleted neighbor found" although neither in-grid orthogonal
neighbour of `(0,0)` is Deleted: the message is propagated out of the forced
finalization cascade that runs after `(0,0)` itself was deleted, refuting the
claimed "only if" direction. -/
theorem c4_counterexample :
    (tableC4.cellAt 0 0).state = CState.unknown
    ∧ hasDeletedOrtho tableC4 0 0 = false
    ∧ (tableC4.cellAt 0 1).state ≠ CState.deleted
    ∧ (tableC4.cellAt 1 0).state ≠ CState.deleted
    ∧ tableC4.deleteCell 0 0 = Except.error (Err.noSolution "deleted neighbor found") := by
  refine ⟨by decide, by decide, by decide, by decide, by decide⟩

/-- C4 amended: on an Unknown cell, the validation phase of `deleteCell`
behaves as claimed — the orthogonal scan fails with "deleted neighbor found"
precisely when some in-grid orthogonal neighbour is Deleted, and the
union-find phase (border union first, then the Deleted diagonal neighbours in
order) surfaces its errors, "circular neighbors found" included, unchanged;
when both validations pass, the result is produced by the forced-finalization
cascade run on the board with the cell Deleted — so a "deleted neighbor
found" failure without a Deleted orthogonal neighbour can only be propagated
from that cascade. -/
theorem c4_delete_validation (t : Table) (r c : Nat)
    (hu : (t.cellAt r c).state = CState.unknown) :
    (hasDeletedOrtho t r c = true ↔ ∃ off ∈ orthoOffsets,
        inGridB t.size ((r : Int) + off.1) ((c : Int) + off.2) = true
        ∧ (t.cellAt ((r : Int) + off.1).toNat ((c : Int) + off.2).toNat).state
            = CState.deleted)
    ∧ (hasDeletedOrtho t r c = true →
        t.deleteCell r c = Except.error (Err.noSolution "deleted neighbor found"))
    ∧ (hasDeletedOrtho t r c = false → ∀ e, deleteChecks t r c = Except.error e →
        t.deleteCell r c = Except.error e)
    ∧ (hasDeletedOrtho t r c = false → ∀ d, deleteChecks t r c = Except.ok d →
        t.deleteCell r c = orthoRun (cellOpF t.unknownCellCount COp.finalizeOp)
          { t.markCell r c CState.deleted with deletedTrees := d } r c) := by
  refine ⟨?_, ?_, ?_, ?_⟩
  · unfold hasDeletedOrtho
    rw [List.any_eq_true]
    constructor
    · rintro ⟨off, hmem, hp⟩
      simp only [Bool.and_eq_true, beq_iff_eq] at hp
      exact ⟨off, hmem, hp.1, hp.2⟩
    · rintro ⟨off, hmem, h1, h2⟩
      refine ⟨off, hmem, ?_⟩
      simp only [Bool.and_eq_true, beq_iff_eq]
      exact ⟨h1, h2⟩
  · intro hdo
    show cellOpF (t.unknownCellCount + 1) COp.deleteOp t r c = _
    simp only [cellOpF]
    rw [if_pos hu, if_pos hdo]
  · intro hdo e hd
    show cellOpF (t.unknownCellCount + 1) COp.deleteOp t r c = _
    simp only [cellOpF]
    rw [if_pos hu, if_neg (by simp [hdo])]
    rw [hd, bindE_error]
  · intro hdo d hd
    show cellOpF (t.unknownCellCount + 1) COp.deleteOp t r c = _
    simp only [cellOpF]
    rw [if_pos hu, if_neg (by simp [hdo])]
    rw [hd, bindE_ok]

/-- C4 witness: at the Unknown cell `(2,1)` of `tableC4`, whose orthogonal
neighbour `(2,0)` is Deleted, `deleteCell` fails with the claimed message. -/
theorem c4_witness :
    tableC4.deleteCell 2 1 = Except.error (Err.noSolution "deleted neighbor found") :=
  (c4_delete_validation tableC4 2 1 (by decide)).2.1 (by decide)

/-- C5 counterexample: `finalizeCell` at the Unknown cell `(1,0)` of
`tableC5` succeeds although the cell `(0,0)` directly above it in the same
column is already Final with the same value 1 — the claimed
"multiple finalized values found in a column" contradiction is not raised,
because after the decrement no Unknown cell with value 1 remains in column 0
and the column scan is skipped. -/
theorem c5_counterexample :
    (tableC5.cellAt 1 0).state = CState.unknown
    ∧ (tableC5.cellAt 0 0).state = CState.final
    ∧ (tableC5.cellAt 0 0).value = (tableC5.cellAt 1 0).value
    ∧ (tableC5.finalizeCell 1 0).isOk = true := by
  refine ⟨by decide, by decide, by decide, by decide⟩

/-- C5 amended: `finalizeCell` on an Unknown cell sets it Final and
decrements the three counts, and then scans the column (respectively the row)
for other cells with the same value only when the decremented column
(respectively row) count of that value is still positive; during such a scan
an already-Final same-value cell raises the contradiction and an Unknown
same-value cell is recursively Deleted.  When both decremented counts are
zero no scan runs, so the call returns the marked board unchanged and a
pre-existing Final duplicate goes undetected. -/
theorem c5_finalize_guarded_scans (t : Table) (row column : Nat)
    (hu : (t.cellAt row column).state = CState.unknown) :
    t.finalizeCell row column = finalizeCellSpec t row column
    ∧ ((t.markCell row column CState.final).colCount column (t.cellAt row column).value = 0 →
       (t.markCell row column CState.final).rowCount row (t.cellAt row column).value = 0 →
       t.finalizeCell row column = Except.ok (t.markCell row column CState.final)) := by
  have heq : t.finalizeCell row column = finalizeCellSpec t row column := by
    show cellOpF (t.unknownCellCount + 1) COp.finalizeOp t row column = _
    simp only [cellOpF]
    rw [if_pos hu]
    rfl
  refine ⟨heq, ?_⟩
  intro h1 h2
  rw [heq]
  unfold finalizeCellSpec
  dsimp only
  rw [if_neg (by omega), bindE_ok, if_neg (by omega)]

/-- C5 witness: applying the amended description at `tableC5 (1,0)`, where
both decremented counts are zero, the call returns the marked board. -/
theorem c5_witness :
    tableC5.finalizeCell 1 0 = Except.ok (tableC5.markCell 1 0 CState.final) :=
  (c5_finalize_guarded_scans tableC5 1 0 (by decide)).2 (by decide) (by decide)

end Hitori

namespace Hitori

/-- C2: on a consistent board every successful `finalizeCell` and every
successful `deleteCell` strictly decreases `unknownCellCount` (each marks at
least the target cell), and consequently the `solve` recursion — whose fuel
is `unknownCellCount + 1` and which recurses only on the results of these
operations — terminates: its fuel is never exhausted, so every call returns a
board or an error. -/
theorem c2_termination (t : Table) (r c : Nat) (hInv : TableInv t) :
    (∀ t', t.finalizeCell r c = Except.ok t' → t'.unknownCellCount < t.unknownCellCount)
    ∧ (∀ t', t.deleteCell r c = Except.ok t' → t'.unknownCellCount < t.unknownCellCount)
    ∧ solve t ≠ Except.error Err.fuelExhausted :=
  ⟨fun t' h => (finalizeCell_ok t r c hInv t' h).2,
   fun t' h => (deleteCell_ok t r c hInv t' h).2,
   solve_ne_fuel t hInv⟩

/-- C2 witness: the embedded solver applied to the all-ones 2×2 board, which
forces both branches of the search, never exhausts its fuel. -/
theorem c2_witness : solve tableAllOnes ≠ Except.error Err.fuelExhausted :=
  (c2_termination tableAllOnes 0 0 (by decide)).2.2

/-- C3: at an unsolved node, `solve` tries the speculative finalize branch
(finalize the candidate on a copy and recurse); a success is returned as is;
exactly a `NoSolutionExists` failure of that branch is caught, after which
`deleteCell` is applied to the original (uncopied) board at the same
candidate position and the search recurses on it; every other error class
propagates out of `solve` unchanged. -/
theorem c3_solve_catches_only_noSolution (t : Table)
    (hns : t.finalizeUniqueCells.isSolved = false) :
    (∀ r, (do
        let tc ← t.finalizeUniqueCells.finalizeCell
            t.finalizeUniqueCells.getFinalizeCandidatePos.1
            t.finalizeUniqueCells.getFinalizeCandidatePos.2
        solveF t.unknownCellCount tc : Except Err Table) = Except.ok r →
      solve t = Except.ok r)
    ∧ (∀ s, (do
        let tc ← t.finalizeUniqueCells.finalizeCell
            t.finalizeUniqueCells.getFinalizeCandidatePos.1
            t.finalizeUniqueCells.getFinalizeCandidatePos.2
        solveF t.unknownCellCount tc : Except Err Table)
          = Except.error (Err.noSolution s) →
      solve t = (do
        let t1 ← t.finalizeUniqueCells.deleteCell
            t.finalizeUniqueCells.getFinalizeCandidatePos.1
            t.finalizeUniqueCells.getFinalizeCandidatePos.2
        solveF t.unknownCellCount t1 : Except Err Table))
    ∧ (∀ e, (do
        let tc ← t.finalizeUniqueCells.finalizeCell
            t.finalizeUniqueCells.getFinalizeCandidatePos.1
            t.finalizeUniqueCells.getFinalizeCandidatePos.2
        solveF t.unknownCellCount tc : Except Err Table) = Except.error e →
      (∀ s, e ≠ Err.noSolution s) →
      solve t = Except.error e) := by
  refine ⟨?_, ?_, ?_⟩
  · intro r h
    show solveF (t.unknownCellCount + 1) t = _
    simp only [solveF]
    rw [if_neg (by simp [hns])]
    simp only [h]
  · intro s h
    show solveF (t.unknownCellCount + 1) t = _
    simp only [solveF]
    rw [if_neg (by simp [hns])]
    simp only [h]
  · intro e h hne
    show solveF (t.unknownCellCount + 1) t = _
    simp only [solveF]
    rw [if_neg (by simp [hns])]
    cases e with
    | noSolution s => exact absurd rfl (hne s)
    | invalidShape => simp only [h]
    | invalidValue => simp only [h]
    | multipleStateChange => simp only [h]
    | rangeError => simp only [h]
    | notRoot => simp only [h]
    | fuelExhausted => simp only [h]

/-- C3 witness: on the all-ones 2×2 board the speculative branch fails with
the puzzle contradiction "circular neighbors found", and `solve` proceeds by
deleting the candidate on the original board and recursing. -/
theorem c3_witness :
    solve tableAllOnes = (do
      let t1 ← tableAllOnes.finalizeUniqueCells.deleteCell
          tableAllOnes.finalizeUniqueCells.getFinalizeCandidatePos.1
          tableAllOnes.finalizeUniqueCells.getFinalizeCandidatePos.2
      solveF tableAllOnes.unknownCellCount t1 : Except Err Table) :=
  (c3_solve_catches_only_noSolution tableAllOnes (by decide)).2.1
    "circular neighbors found" (by decide)

/-- C6: on every board reachable from a freshly constructed `Table` by
non-failing `finalizeUniqueCells`, `finalizeCell` and `deleteCell`
invocations, `rowCounts[r][v]` equals the number of Unknown cells of value
`v` in row `r`, and `columnCounts[c][v]` equals the number of Unknown cells
of value `v` in column `c`. -/
theorem c6_count_invariant (t : Table) (h : Reachable t) :
    (∀ r, r < t.size → ∀ v, t.rowCount r v = rowUnknownCount t r v)
    ∧ (∀ c, c < t.size → ∀ v, t.colCount c v = colUnknownCount t c v) := by
  have hInv := reachable_inv t h
  obtain ⟨hsz, hcl, hrowlen, hrcl, hrclen, hccl, hcclen, hval, hrc, hcc, hcount⟩ := hInv
  constructor
  · intro r hr v
    by_cases hv : v < t.size + 1
    · exact hrc r hr v hv
    · have h1 : t.rowCount r v = 0 := by
        rw [Table.rowCount]
        apply getD_of_length_le
        have hrclt : r < t.rowCounts.length := by omega
        rw [hrclen _ (getD_mem_of_lt _ _ _ hrclt)]
        omega
      have h2 : rowUnknownCount t r v = 0 := by
        rw [rowUnknownCount]
        rw [List.countP_eq_zero]
        intro cell hmem
        have hrlt : r < t.cells.length := by omega
        have hvr := hval _ (getD_mem_of_lt _ _ _ hrlt) _ hmem
        simp only [Bool.and_eq_true, beq_iff_eq, not_and]
        intro hcv
        omega
      rw [h1, h2]
  · intro c hc v
    by_cases hv : v < t.size + 1
    · exact hcc c hc v hv
    · have h1 : t.colCount c v = 0 := by
        rw [Table.colCount]
        apply getD_of_length_le
        have hcclt : c < t.columnCounts.length := by omega
        rw [hcclen _ (getD_mem_of_lt _ _ _ hcclt)]
        omega
      have h2 : colUnknownCount t c v = 0 := by
        rw [colUnknownCount]
        rw [List.countP_eq_zero]
        intro row hmem
        simp only [Bool.and_eq_true, beq_iff_eq, not_and]
        intro hcv
        have hrowsz : row.length = t.size := hrowlen _ hmem
        by_cases hclen : c < row.length
        · have hvr := hval _ hmem _ (getD_mem_of_lt row c ⟨0, CState.deleted⟩ hclen)
          omega
        · rw [getD_of_length_le _ _ _ (by omega)] at hcv
          intro hst
          rw [getD_of_length_le _ _ _ (by omega)] at hst
          cases hst
      rw [h1, h2]

/-- C6 witness: the invariant instantiated on the freshly constructed 1×1
board `[[1]]`. -/
theorem c6_witness : tableOne.rowCount 0 1 = rowUnknownCount tableOne 0 1 :=
  (c6_count_invariant tableOne
    (Reachable.base [[1]] tableOne (by decide) (by decide))).1 0 (by decide) 1

/-- C7: when some Unknown candidate scores positively,
`getFinalizeCandidatePos` returns the position of the first triple `(r, c, v)`
— in row-major, value-ascending scan order over the Unknown cells — whose
score `rowCounts[r][v] + columnCounts[c][v] - 1` (computed in wrapping
32-bit unsigned arithmetic) attains the maximum of all such scores;
every Unknown candidate's score is bounded by that maximum. -/
theorem c7_candidate_heuristic (t : Table) (hpos : 0 < maxCandScore t) :
    ∃ x0, ((candList t).filter (unknownCand t)).find?
          (fun x => decide (maxCandScore t ≤ candScore t x.1 x.2.1 x.2.2)) = some x0
      ∧ t.getFinalizeCandidatePos = (x0.1, x0.2.1)
      ∧ candScore t x0.1 x0.2.1 x0.2.2 = maxCandScore t
      ∧ unknownCand t x0 = true
      ∧ ∀ x ∈ candList t, unknownCand t x = true →
          candScore t x.1 x.2.1 x.2.2 ≤ maxCandScore t := by
  obtain ⟨x0, hfind, hfeq, hscore⟩ := getFinalizeCandidatePos_char t hpos
  have hmem := List.mem_of_find?_eq_some hfind
  rw [List.mem_filter] at hmem
  exact ⟨x0, hfind, hfeq, hscore, hmem.2,
    fun x hx hux => scanMax_ge_elem t _ 0 x hx hux⟩

/-- C7 witness: the heuristic characterization instantiated on the all-ones
2×2 board, whose maximum score is positive. -/
theorem c7_witness :
    ∃ x0, ((candList tableAllOnes).filter (unknownCand tableAllOnes)).find?
          (fun x => decide (maxCandScore tableAllOnes
            ≤ candScore tableAllOnes x.1 x.2.1 x.2.2)) = some x0
      ∧ tableAllOnes.getFinalizeCandidatePos = (x0.1, x0.2.1)
      ∧ candScore tableAllOnes x0.1 x0.2.1 x0.2.2 = maxCandScore tableAllOnes
      ∧ unknownCand tableAllOnes x0 = true
      ∧ ∀ x ∈ candList tableAllOnes, unknownCand tableAllOnes x = true →
          candScore tableAllOnes x.1 x.2.1 x.2.2 ≤ maxCandScore tableAllOnes :=
  c7_candidate_heuristic tableAllOnes (by decide)

/-- C10: on a consistent board with at least one Unknown cell, the position
returned by `getFinalizeCandidatePos` is an in-grid Unknown cell, so neither
the `finalizeCell` nor the `deleteCell` that `solve` performs at that
position can report `MultipleStateChangeException`. -/
theorem c10_candidate_safe (t : Table) (hInv : TableInv t)
    (hpos : 0 < t.unknownCellCount) :
    t.getFinalizeCandidatePos.1 < t.size
    ∧ t.getFinalizeCandidatePos.2 < t.size
    ∧ (t.cellAt t.getFinalizeCandidatePos.1 t.getFinalizeCandidatePos.2).state
        = CState.unknown
    ∧ t.finalizeCell t.getFinalizeCandidatePos.1 t.getFinalizeCandidatePos.2
        ≠ Except.error Err.multipleStateChange
    ∧ t.deleteCell t.getFinalizeCandidatePos.1 t.getFinalizeCandidatePos.2
        ≠ Except.error Err.multipleStateChange := by
  obtain ⟨h1, h2, h3⟩ := candidate_unknown t hInv hpos
  exact ⟨h1, h2, h3, finalizeCell_ne_msc _ _ _ h3, deleteCell_ne_msc _ _ _ h3⟩

/-- C10 witness: on the all-ones 2×2 board the candidate position is an
Unknown cell. -/
theorem c10_witness :
    (tableAllOnes.cellAt tableAllOnes.getFinalizeCandidatePos.1
      tableAllOnes.getFinalizeCandidatePos.2).state = CState.unknown :=
  (c10_candidate_safe tableAllOnes (by decide) (by decide)).2.2.1

end Hitori
